import Mathlib

/-!
# Verification of the probables-grid extraction pipeline

Shallow embedding of `src/app.py` (functions `parse_pitcher_entry`,
`extract_dates_from_headers`, `extract_pitcher_starts`) and proofs of the
specification claims about them.

Modelling conventions:
* Python `re` patterns are embedded via a small regex AST (`RE`) together
  with a backtracking matcher (`matchAux`) that mirrors Python's leftmost,
  greedy-with-backtracking semantics for the constructs actually used
  (literal, character class, concatenation, greedy `?`, greedy `*`/`+`
  over a character class, capturing group, and the `$` anchor, which in
  Python matches at the end of the string or just before one final
  newline).  `re.match` anchors at the start; `re.search` tries successive
  start positions left to right.
* Character classes (`\s`, `\w`, `\d`, `[A-Za-z]`, …) are modelled at
  their ASCII meaning; the program's data (team codes, names, dates) is
  ASCII.
* The BeautifulSoup document is modelled by the structure the code
  queries: an optional `div.table-scroll` holding an optional `table`
  holding rows, with a flag recording whether the rows sit inside a
  `tbody` element (the parser `html.parser` does not insert an implied
  `tbody`).  Calling `.find`/`.find_all` on a `None` result raises
  `AttributeError`, which the embedding surfaces as `Except.error`.
* `datetime.now()` is passed explicitly as a `PyDate` (month and year are
  the only fields the code reads).
* `datetime(year, month, day)` validity (including leap years and the
  year range 1..9999) is `isValidDate`; `strftime("%Y-%m-%d")` is
  `formatDate` (zero-padded fields).
* Python's `list.sort(key=...)` is a stable ascending sort; it is
  modelled by an insertion sort, which computes the same (unique) stable
  sorted permutation.
-/

namespace SpApp

/-! ## Python character classes and string helpers (ASCII model) -/

/-- Python regex `\s` (ASCII part): space, tab, newline, CR, VT, FF,
stated on code points. -/
def pySpace (c : Char) : Bool :=
  decide (c.toNat = 32 ∨ c.toNat = 9 ∨ c.toNat = 10 ∨ c.toNat = 13 ∨
    c.toNat = 11 ∨ c.toNat = 12)

/-- The class `[A-Z]` (= `Char.isUpper`), stated on code points. -/
def upperChar (c : Char) : Bool :=
  decide (65 ≤ c.toNat ∧ c.toNat ≤ 90)

/-- The class `[A-Za-z]` (= `Char.isAlpha`), stated on code points. -/
def letterChar (c : Char) : Bool :=
  decide ((65 ≤ c.toNat ∧ c.toNat ≤ 90) ∨ (97 ≤ c.toNat ∧ c.toNat ≤ 122))

/-- The class `\d` (= `Char.isDigit`), stated on code points. -/
def digitChar09 (c : Char) : Bool :=
  decide (48 ≤ c.toNat ∧ c.toNat ≤ 57)

/-- Python regex `\w` (ASCII part): letters, digits, underscore. -/
def wordChar (c : Char) : Bool :=
  letterChar c || digitChar09 c || decide (c.toNat = 95)

/-- The class `[A-Za-z\s]` of the pitcher-name group. -/
def nameChar (c : Char) : Bool :=
  letterChar c || pySpace c

/-- The class `[LR]` of the handedness group. -/
def handChar (c : Char) : Bool :=
  c == 'L' || c == 'R'

/-- Python `str.strip()` on a character list. -/
def pyStrip (s : List Char) : List Char :=
  ((s.dropWhile pySpace).reverse.dropWhile pySpace).reverse

/-- Python `str.strip()` on a string. -/
def pyStripStr (s : String) : String :=
  String.mk (pyStrip s.data)

/-- ASCII lower-casing of one character (`str.lower()`; the strings it is
applied to only contain letters and spaces). -/
def lowerChar (c : Char) : Char :=
  if c.isUpper then Char.ofNat (c.toNat + 32) else c

/-- Python `str.lower()` (ASCII model). -/
def pyLower (s : String) : String :=
  String.mk (s.data.map lowerChar)

/-- Python `int()` on a nonempty string of decimal digits. -/
def natOfDigits (s : List Char) : Nat :=
  s.foldl (fun a c => 10 * a + (c.toNat - 48)) 0

/-- Python `str.split(sep)` helper. -/
def pySplitAux (sep : Char) : List Char → List Char → List (List Char)
  | [], acc => [acc.reverse]
  | c :: rest, acc =>
    if c = sep then acc.reverse :: pySplitAux sep rest []
    else pySplitAux sep rest (c :: acc)

/-- Python `str.split(sep)` on a character list. -/
def pySplit (sep : Char) (s : List Char) : List (List Char) :=
  pySplitAux sep s []

/-- Python `<` on strings, on character lists: lexicographic by code
point, a strict prefix being smaller. -/
def strLtList : List Char → List Char → Bool
  | [], [] => false
  | [], _ :: _ => true
  | _ :: _, [] => false
  | a :: as, b :: bs =>
    if a.toNat < b.toNat then true
    else if b.toNat < a.toNat then false
    else strLtList as bs

/-- Python `<=` on strings (lexicographic by code point). -/
def strLe (a b : String) : Bool :=
  !(strLtList b.data a.data)

/-- Python `enumerate(xs, start)`. -/
def pyEnumerate (start : Nat) : List α → List (Nat × α)
  | [] => []
  | x :: xs => (start, x) :: pyEnumerate (start + 1) xs

/-! ## A backtracking regex engine (Python `re` semantics for the
patterns used by the program) -/

/-- Capture list: group number paired with the captured characters. -/
abbrev Caps := List (Nat × List Char)

/-- Regex AST covering exactly the constructs of the two patterns in
`app.py`: literals, character classes, concatenation, greedy `?`, greedy
`*` and `+` over a character class, numbered capturing groups, and the
Python `$` anchor. -/
inductive RE where
  | lit : Char → RE
  | cls : (Char → Bool) → RE
  | seq : RE → RE → RE
  | opt : RE → RE
  | star : (Char → Bool) → RE
  | plus : (Char → Bool) → RE
  | grp : Nat → RE → RE
  | dollar : RE

/-- Greedy matching of `p*`: consume as many `p`-characters as possible,
then give back one at a time while the continuation fails. -/
def starAux (p : Char → Bool) : List Char → (List Char → Option Caps) → Option Caps
  | [], k => k []
  | c :: rest, k =>
    if p c then
      match starAux p rest k with
      | some r => some r
      | none => k (c :: rest)
    else k (c :: rest)

/-- Backtracking matcher in continuation-passing style.  `matchAux r s k`
matches `r` against a prefix of `s` and runs `k` on the remainder,
exploring alternatives in Python's order (greedy first).  Capturing
groups prepend their captured segment to the continuation's result. -/
def matchAux : RE → List Char → (List Char → Option Caps) → Option Caps
  | .lit c, s, k =>
    match s with
    | [] => none
    | x :: rest => if x = c then k rest else none
  | .cls p, s, k =>
    match s with
    | [] => none
    | x :: rest => if p x then k rest else none
  | .seq a b, s, k => matchAux a s (fun rest => matchAux b rest k)
  | .opt a, s, k =>
    (match matchAux a s k with
     | some r => some r
     | none => k s)
  | .star p, s, k => starAux p s k
  | .plus p, s, k =>
    match s with
    | [] => none
    | x :: rest => if p x then starAux p rest k else none
  | .grp n a, s, k =>
    matchAux a s (fun rest => (k rest).map (fun caps => (n, s.take (s.length - rest.length)) :: caps))
  | .dollar, s, k => if s = [] ∨ s = ['\n'] then k s else none

/-- Python `re.match(pattern, s)`: anchored at the start only. -/
def reMatch (r : RE) (s : String) : Option Caps :=
  matchAux r s.data (fun _ => some [])

/-- Python `re.search(pattern, s)`: leftmost match, trying successive
start positions. -/
def reSearch (r : RE) : List Char → Option Caps
  | [] => matchAux r [] (fun _ => some [])
  | s@(_ :: rest) =>
    match matchAux r s (fun _ => some []) with
    | some caps => some caps
    | none => reSearch r rest

/-- `match.group(n)`: `none` when the group did not participate. -/
def capGet (caps : Caps) (n : Nat) : Option (List Char) :=
  (caps.find? (fun p => p.1 == n)).map (·.2)

/-! ## `parse_pitcher_entry` (app.py lines 38-58) -/

/-- The pattern `^(@)?\s*([A-Z]{3})\s*([A-Za-z\s]+)\s*\(([LR])\)$`. -/
def entryPattern : RE :=
  .seq (.opt (.grp 1 (.lit '@')))
    (.seq (.star pySpace)
      (.seq (.grp 2 (.seq (.cls upperChar) (.seq (.cls upperChar) (.cls upperChar))))
        (.seq (.star pySpace)
          (.seq (.grp 3 (.plus nameChar))
            (.seq (.star pySpace)
              (.seq (.lit '(')
                (.seq (.grp 4 (.cls handChar))
                  (.seq (.lit ')') .dollar))))))))

/-- Result dictionary of `parse_pitcher_entry`. -/
structure ParsedEntry where
  handedness : String
  pitcher_name : String
  formatted_opponent : String
deriving DecidableEq

/-- `parse_pitcher_entry` (app.py lines 38-58). -/
def parse_pitcher_entry (entry : String) : Option ParsedEntry :=
  match reMatch entryPattern entry with
  | none => none
  | some caps =>
    some {
      handedness := String.mk ((capGet caps 4).getD [])
      pitcher_name := String.mk (pyStrip ((capGet caps 3).getD []))
      formatted_opponent := String.mk
        ((if capGet caps 1 == some ['@'] then '@' else 'v') :: ' ' :: (capGet caps 2).getD []) }

/-! ## `extract_dates_from_headers` (app.py lines 61-103) -/

/-- The fields of `datetime.now()` the program reads. -/
structure PyDate where
  month : Nat
  year : Nat
deriving DecidableEq

/-- Year heuristic (app.py lines 89-95): if the extracted month is
numerically smaller than the current month, use next year. -/
def resolveYear (month : Nat) (now : PyDate) : Nat :=
  if month < now.month then now.year + 1 else now.year

/-- Gregorian leap year, as used by `datetime`. -/
def isLeapYear (y : Nat) : Bool :=
  y % 4 == 0 && (y % 100 != 0 || y % 400 == 0)

/-- Days in a month, as used by `datetime`. -/
def daysInMonth (y m : Nat) : Nat :=
  if m == 2 then (if isLeapYear y then 29 else 28)
  else if m == 4 || m == 6 || m == 9 || m == 11 then 30
  else 31

/-- Whether `datetime(year, month, day)` succeeds (otherwise it raises
`ValueError`, which the code catches and turns into a skip). -/
def isValidDate (y m d : Nat) : Bool :=
  decide (1 ≤ y ∧ y ≤ 9999 ∧ 1 ≤ m ∧ m ≤ 12 ∧ 1 ≤ d ∧ d ≤ daysInMonth y m)

/-- Decimal digits of a natural number, with fuel (the fuel `n + 1`
always suffices, and keeps the function structurally recursive). -/
def decDigitsAux : Nat → Nat → List Char
  | 0, _ => []
  | fuel + 1, n =>
    if n < 10 then [Nat.digitChar n]
    else decDigitsAux fuel (n / 10) ++ [Nat.digitChar (n % 10)]

/-- Decimal digits of a natural number (Python `str(n)` for a `Nat`). -/
def decDigits (n : Nat) : List Char :=
  decDigitsAux (n + 1) n

/-- Left-pad with zeros. -/
def padZero (w : Nat) (s : List Char) : List Char :=
  List.replicate (w - s.length) '0' ++ s

/-- `date_obj.strftime("%Y-%m-%d")`: zero-padded year, month, day. -/
def formatDate (y m d : Nat) : String :=
  String.mk (padZero 4 (decDigits y) ++ '-' :: (padZero 2 (decDigits m) ++ '-' :: padZero 2 (decDigits d)))

/-- The pattern `(\w{3})\s*(\d+/\d+)` searched in each header cell. -/
def datePattern : RE :=
  .seq (.grp 1 (.seq (.cls wordChar) (.seq (.cls wordChar) (.cls wordChar))))
    (.seq (.star pySpace)
      (.grp 2 (.seq (.plus digitChar09) (.seq (.lit '/') (.plus digitChar09)))))

/-- Processing of one header cell (app.py lines 79-101): search for the
date token in the stripped text, parse month/day, resolve the year, and
format — skipping (returning `none`) when anything raises `ValueError`. -/
def processHeader (th : String) (now : PyDate) : Option String :=
  match reSearch datePattern (pyStrip th.data) with
  | none => none
  | some caps =>
    match pySplit '/' ((capGet caps 2).getD []) with
    | [ms, ds] =>
      let month := natOfDigits ms
      let day := natOfDigits ds
      let year := resolveYear month now
      if isValidDate year month day then some (formatDate year month day) else none
    | _ => none

/-- The date dictionary built by the loop at app.py line 78: header cells
except the first, enumerated from 1. -/
def buildDateMap (ths : List String) (now : PyDate) : List (Nat × String) :=
  (pyEnumerate 1 (ths.drop 1)).filterMap
    (fun p => (processHeader p.2 now).map (fun d => (p.1, d)))

/-! ## The document model -/

/-- One `tr` element: texts of its `th` cells and of its `td` cells. -/
structure HtmlRow where
  ths : List String
  tds : List String
deriving DecidableEq

/-- The `table` element.  `hasTbody` records whether its rows sit inside
a `tbody` child (the code calls `.find("tbody")` and dies when there is
none); `rows` are all `tr` descendants in document order. -/
structure HtmlTable where
  hasTbody : Bool
  rows : List HtmlRow
deriving DecidableEq

/-- The `div.table-scroll` element. -/
structure TableDiv where
  table : Option HtmlTable
deriving DecidableEq

/-- The parsed document, reduced to the parts the code queries. -/
structure HtmlDoc where
  tableDiv : Option TableDiv
deriving DecidableEq

/-- The only exception the pipeline can raise: calling `.find` /
`.find_all` on `None`. -/
inductive PyExn where
  | attributeError
deriving DecidableEq

/-- `extract_dates_from_headers` (app.py lines 61-103).  The chained
`soup.find("div", ...).find("table").find("tbody").find("tr")` raises
`AttributeError` whenever one link is `None`. -/
def extract_dates_from_headers (soup : HtmlDoc) (now : PyDate) :
    Except PyExn (List (Nat × String)) :=
  match soup.tableDiv with
  | none => .error .attributeError
  | some dv =>
    match dv.table with
    | none => .error .attributeError
    | some t =>
      if t.hasTbody then
        match t.rows.head? with
        | none => .error .attributeError
        | some headerRow => .ok (buildDateMap headerRow.ths now)
      else .error .attributeError

/-! ## `extract_pitcher_starts` (app.py lines 106-173) -/

/-- One output record (the dict built at app.py lines 158-163). -/
structure Record where
  Date : String
  Handedness : String
  Pitcher : String
  Opponent : String
deriving DecidableEq

/-- Python `dict.get` on the date map. -/
def dictGet (m : List (Nat × String)) (k : Nat) : Option String :=
  (m.find? (fun p => p.1 == k)).map (·.2)

/-- Processing of one cell (app.py lines 148-164): parse the entry, apply
the player filter, and attach the date via `date_mapping.get(col_idx - 1,
"Unknown")`. -/
def processCell (dm : List (Nat × String)) (player_names : List String)
    (ci : Nat × String) : Option Record :=
  match parse_pitcher_entry ci.2 with
  | none => none
  | some pe =>
    if player_names.isEmpty || player_names.contains (pyLower pe.pitcher_name) then
      some { Date := (dictGet dm (ci.1 - 1)).getD "Unknown"
             Handedness := pe.handedness
             Pitcher := pe.pitcher_name
             Opponent := pe.formatted_opponent }
    else none

/-- Processing of one data row (app.py lines 143-164): stripped `td`
texts, enumerated from 1. -/
def processRow (dm : List (Nat × String)) (player_names : List String)
    (tr : HtmlRow) : List Record :=
  (pyEnumerate 1 (tr.tds.map pyStripStr)).filterMap (processCell dm player_names)

/-- The unsorted `parsed_rows` list (app.py lines 140-167): all rows
except the first, in document order. -/
def assembleRows (t : HtmlTable) (dm : List (Nat × String))
    (player_names : List String) : List Record :=
  ((t.rows.drop 1).map (processRow dm player_names)).flatten

/-- Ascending comparison on the `Date` field (the sort key of app.py
line 170), under Python's lexicographic string comparison. -/
def recLe (a b : Record) : Bool :=
  strLe a.Date b.Date

/-- Stable insertion of a record in front of the first element not
strictly below it. -/
def insertLe (x : Record) : List Record → List Record
  | [] => [x]
  | y :: ys => if recLe x y then x :: y :: ys else y :: insertLe x ys

/-- `parsed_rows.sort(key=lambda x: x["Date"])` (app.py line 170):
Python's stable ascending sort, modelled by insertion sort (any stable
sort computes the same list). -/
def sortRecords : List Record → List Record
  | [] => []
  | x :: xs => insertLe x (sortRecords xs)

/-- `extract_pitcher_starts` (app.py lines 106-173).  Returns the emitted
warnings together with the record list; the local `headers` variable of
line 137 is computed but never used and is omitted.  The call to
`extract_dates_from_headers` is not guarded, so its `AttributeError`
escapes. -/
def extract_pitcher_starts (soup : HtmlDoc) (player_names : List String)
    (now : PyDate) : Except PyExn (List String × List Record) :=
  match soup.tableDiv with
  | none => .ok (["Could not find table with class 'table-scroll'"], [])
  | some dv =>
    match dv.table with
    | none => .ok (["No table found within the 'table-scroll' div"], [])
    | some t =>
      match extract_dates_from_headers soup now with
      | .error e => .error e
      | .ok date_mapping =>
        .ok ([], sortRecords (assembleRows t date_mapping player_names))

/-! ## Spec-side definitions

The claim about the date map speaks of header text *containing* a token
of the grammar "3-letter weekday abbreviation, optional whitespace,
numeric month/day separated by a slash" that also forms a valid calendar
date.  The following definitions follow those words (not the code), for
comparison with `buildDateMap`. -/

/-- The seven 3-letter weekday abbreviations. -/
def specWeekdayAbbrevs : List String :=
  ["Mon", "Tue", "Wed", "Thu", "Fri", "Sat", "Sun"]

/-- Whether the given position starts a token of the claimed grammar —
weekday abbreviation, optional whitespace, digits, slash, digits — whose
month/day also form a valid calendar date under the year-resolution
heuristic. -/
def specTokenHeadValid (s : List Char) (now : PyDate) : Bool :=
  match s with
  | a :: b :: c :: rest =>
    if specWeekdayAbbrevs.contains (String.mk [a, b, c]) then
      let r2 := rest.dropWhile pySpace
      let ms := r2.takeWhile digitChar09
      match r2.drop ms.length with
      | '/' :: r3 =>
        let ds := r3.takeWhile digitChar09
        if ms.length > 0 && ds.length > 0 then
          let m := natOfDigits ms
          isValidDate (resolveYear m now) m (natOfDigits ds)
        else false
      | _ => false
    else false
  | _ => false

/-- Whether the header cell text contains, at any position, a valid date
token in the sense of the claim. -/
def specContainsValidDateToken (th : String) (now : PyDate) : Bool :=
  (pyStrip th.data).tails.any (fun t => specTokenHeadValid t now)

/-! ## Relational semantics of the regex engine

`MatchesC r s rest caps` states that `r` can match the prefix of `s`
preceding `rest`, contributing the capture entries `caps` (in group
order).  `matchAux` is sound and complete for this relation; the
negative and universal regex claims are settled through it. -/

/-- Relational match semantics (with captures) for `RE`. -/
inductive MatchesC : RE → List Char → List Char → Caps → Prop where
  | lit (c : Char) (rest : List Char) : MatchesC (.lit c) (c :: rest) rest []
  | cls {p : Char → Bool} {c : Char} (rest : List Char) :
      p c = true → MatchesC (.cls p) (c :: rest) rest []
  | seq {a b : RE} {s mid rest : List Char} {ca cb : Caps} :
      MatchesC a s mid ca → MatchesC b mid rest cb →
      MatchesC (.seq a b) s rest (ca ++ cb)
  | optSome {a : RE} {s rest : List Char} {ca : Caps} :
      MatchesC a s rest ca → MatchesC (.opt a) s rest ca
  | optNone (a : RE) (s : List Char) : MatchesC (.opt a) s s []
  | star {p : Char → Bool} (pre rest : List Char) :
      (∀ c ∈ pre, p c = true) → MatchesC (.star p) (pre ++ rest) rest []
  | plus {p : Char → Bool} {c : Char} (pre rest : List Char) :
      p c = true → (∀ x ∈ pre, p x = true) →
      MatchesC (.plus p) (c :: (pre ++ rest)) rest []
  | grp {n : Nat} {a : RE} {s rest : List Char} {ca : Caps} :
      MatchesC a s rest ca →
      MatchesC (.grp n a) s rest (ca ++ [(n, s.take (s.length - rest.length))])
  | dollarNil : MatchesC .dollar [] [] []
  | dollarNl : MatchesC .dollar ['\n'] ['\n'] []

/-! ## Helper lemmas: enumeration and the date dictionary -/

theorem pyEnumerate_mem {α : Type} :
    ∀ {l : List α} {s i : Nat} {x : α},
      (i, x) ∈ pyEnumerate s l → s ≤ i ∧ l[i - s]? = some x := by
  intro l
  induction l with
  | nil => intro s i x h; simp [pyEnumerate] at h
  | cons a as ih =>
    intro s i x h
    simp only [pyEnumerate, List.mem_cons, Prod.mk.injEq] at h
    rcases h with ⟨rfl, rfl⟩ | h
    · simp
    · obtain ⟨hs, hg⟩ := ih h
      refine ⟨by omega, ?_⟩
      have : i - s = (i - (s + 1)) + 1 := by omega
      rw [this, List.getElem?_cons_succ]
      exact hg

theorem dictGet_cons (kv : Nat × String) (m : List (Nat × String)) (k : Nat) :
    dictGet (kv :: m) k = if kv.1 = k then some kv.2 else dictGet m k := by
  by_cases h : kv.1 = k
  · simp [dictGet, List.find?_cons, h]
  · simp [dictGet, List.find?_cons, h]

theorem dictGet_enum_filterMap (f : String → Option String) :
    ∀ (l : List String) (start idx : Nat),
      dictGet ((pyEnumerate start l).filterMap
          (fun p => (f p.2).map (fun d => (p.1, d)))) idx
        = if idx < start then none else (l[idx - start]?).bind f := by
  intro l
  induction l with
  | nil =>
    intro start idx
    simp [pyEnumerate, dictGet]
  | cons a as ih =>
    intro start idx
    have hstep : ¬ idx = start →
        (if idx < start + 1 then none else as[idx - (start + 1)]?.bind f)
          = (if idx < start then none else ((a :: as)[idx - start]?).bind f) := by
      intro hne
      by_cases hlt : idx < start
      · rw [if_pos (by omega), if_pos hlt]
      · rw [if_neg (by omega), if_neg hlt]
        have hidx : idx - start = (idx - (start + 1)) + 1 := by omega
        rw [hidx, List.getElem?_cons_succ]
    have hunf : pyEnumerate start (a :: as)
        = (start, a) :: pyEnumerate (start + 1) as := rfl
    rw [hunf, List.filterMap_cons]
    rcases h : f a with _ | d
    · simp only [h, Option.map_none']
      rw [ih (start + 1) idx]
      by_cases heq : idx = start
      · subst heq
        rw [if_pos (by omega), if_neg (by omega)]
        simp [h]
      · exact hstep heq
    · simp only [h, Option.map_some']
      rw [dictGet_cons]
      by_cases heq : start = idx
      · subst heq
        rw [if_pos rfl, if_neg (by omega)]
        simp [h]
      · rw [if_neg heq, ih (start + 1) idx]
        exact hstep fun hc => heq hc.symm

theorem dictGet_buildDateMap (ths : List String) (now : PyDate) (idx : Nat) :
    dictGet (buildDateMap ths now) idx
      = if idx < 1 then none
        else ((ths.drop 1)[idx - 1]?).bind (fun th => processHeader th now) :=
  dictGet_enum_filterMap (fun th => processHeader th now) (ths.drop 1) 1 idx

/-! ## Claim C2 -/

/-- C2, counterexample.  The claim says a column index is present in the
date map **iff** the header text contains a token of the date grammar
that forms a valid calendar date.  The header `"Mon 13/1 Tue 1/15"`
contains the valid token `"Tue 1/15"` (with current date January 2025),
yet the code only examines the *leftmost* regex match `"Mon 13/1"`,
whose month 13 is invalid, so column 1 is absent from the map. -/
theorem c2_counterexample :
    specContainsValidDateToken "Mon 13/1 Tue 1/15" ⟨1, 2025⟩ = true ∧
    dictGet (buildDateMap ["Team", "Mon 13/1 Tue 1/15"] ⟨1, 2025⟩) 1 = none := by
  constructor <;> rfl

/-- C2 (amended): a column index is present in the ColumnDateMap iff it
is at least 1, addresses a header cell (cells after the first, 1-based),
and the **leftmost** token of that cell matching the date grammar
resolves to a valid calendar date (`processHeader` succeeds); every
other column index is simply absent from the map. -/
theorem c2_amended (ths : List String) (now : PyDate) (idx : Nat) :
    (dictGet (buildDateMap ths now) idx).isSome = true ↔
    (1 ≤ idx ∧ ∃ th, (ths.drop 1)[idx - 1]? = some th ∧
      (processHeader th now).isSome = true) := by
  rw [dictGet_buildDateMap]
  by_cases hlt : idx < 1
  · rw [if_pos hlt]
    simp only [Option.isSome_none, Bool.false_eq_true, false_iff]
    rintro ⟨h1, -⟩
    omega
  · rw [if_neg hlt]
    rcases hg : (ths.drop 1)[idx - 1]? with _ | th
    · simp [hg]
    · simp only [hg, Option.some_bind]
      constructor
      · intro hs
        exact ⟨by omega, th, rfl, hs⟩
      · rintro ⟨-, th2, hth2, hs⟩
        cases hth2
        exact hs

/-! ## Claim C4 -/

/-- C4: a record emitted for the cell at 1-based column index `k` carries
as its date `date_mapping.get(k - 1, "Unknown")`, while the date map is
built with 1-based indices over the header cells excluding the first
(so an entry `(idx, v)` of the map comes from header cell
`(ths.drop 1)[idx - 1]`). -/
theorem c4_date_lookup_offset :
    (∀ (dm : List (Nat × String)) (players : List String) (k : Nat)
        (item : String) (r : Record),
      processCell dm players (k, item) = some r →
      r.Date = (dictGet dm (k - 1)).getD "Unknown") ∧
    (∀ (ths : List String) (now : PyDate) (idx : Nat) (v : String),
      (idx, v) ∈ buildDateMap ths now →
      1 ≤ idx ∧ ∃ th, (ths.drop 1)[idx - 1]? = some th ∧
        processHeader th now = some v) := by
  constructor
  · intro dm players k item r h
    unfold processCell at h
    split at h
    · exact absurd h (by simp)
    · split at h
      · cases h
        rfl
      · exact absurd h (by simp)
  · intro ths now idx v h
    unfold buildDateMap at h
    rw [List.mem_filterMap] at h
    obtain ⟨p, hmem, hmap⟩ := h
    rcases hph : processHeader p.2 now with _ | d
    · rw [hph] at hmap; exact absurd hmap (by simp)
    · rw [hph] at hmap
      simp only [Option.map_some', Option.some.injEq, Prod.mk.injEq] at hmap
      obtain ⟨h1, h2⟩ := hmap
      have hm : (idx, p.2) ∈ pyEnumerate 1 (ths.drop 1) := by
        rw [← h1]; exact hmem
      obtain ⟨hs, hg⟩ := pyEnumerate_mem hm
      exact ⟨hs, p.2, hg, by rw [hph, h2]⟩

/-- C4, witness: a cell at data-row column index 2 whose record's date is
the map entry at index 1. -/
theorem c4_witness :
    (⟨"X", "R", "Jane Doe", "v BOS"⟩ : Record).Date
      = (dictGet [(1, "X")] (2 - 1)).getD "Unknown" :=
  c4_date_lookup_offset.1 [(1, "X")] [] 2 "BOS Jane Doe (R)"
    ⟨"X", "R", "Jane Doe", "v BOS"⟩ (by rfl)

/-! ## Claim C3 -/

/-- C3: whenever the date-token search on a header cell extracts a
month/day pair and the resolved date is a valid calendar date, the
resolver assigns year `Y + 1` exactly when the extracted month is
numerically smaller than the current month `C`, and year `Y` otherwise —
comparing only month numbers. -/
theorem c3_year_resolution (th : String) (now : PyDate) (caps : Caps)
    (ms ds : List Char)
    (hsearch : reSearch datePattern (pyStrip th.data) = some caps)
    (hsplit : pySplit '/' ((capGet caps 2).getD []) = [ms, ds])
    (hvalid : isValidDate (resolveYear (natOfDigits ms) now)
      (natOfDigits ms) (natOfDigits ds) = true) :
    processHeader th now
      = some (formatDate
          (if natOfDigits ms < now.month then now.year + 1 else now.year)
          (natOfDigits ms) (natOfDigits ds)) := by
  unfold processHeader
  simp only [hsearch]
  rw [hsplit]
  simp only [resolveYear] at hvalid ⊢
  rw [if_pos hvalid]

/-- C3, witness: header `"Mon 3/10"` with current date May 2025 resolves
to next year (month 3 < current month 5). -/
theorem c3_witness :
    processHeader "Mon 3/10" ⟨5, 2025⟩
      = some (formatDate
          (if natOfDigits ['3'] < (5 : Nat) then 2025 + 1 else 2025)
          (natOfDigits ['3']) (natOfDigits ['1', '0'])) :=
  c3_year_resolution "Mon 3/10" ⟨5, 2025⟩
    [(1, ['M', 'o', 'n']), (2, ['3', '/', '1', '0'])] ['3'] ['1', '0']
    (by rfl) (by rfl) (by rfl)

/-! ## Claim C1 -/

/-- C1, counterexample.  The claim says every structurally malformed
document yields an empty sequence plus a warning and that no exception
ever escapes.  But when the `table-scroll` div and the table are present
while the table has no `tbody`, the unguarded chain
`soup.find(...).find("table").find("tbody").find("tr")` inside
`extract_dates_from_headers` raises `AttributeError`, which escapes
`extract_pitcher_starts`. -/
theorem c1_counterexample :
    extract_pitcher_starts ⟨some ⟨some ⟨false, []⟩⟩⟩ [] ⟨1, 2025⟩
      = .error .attributeError := by rfl

/-- C1 (amended): if the `table-scroll` div is absent, or the table
within it is absent, `extract_pitcher_starts` returns an empty record
sequence together with a user-visible warning and raises no exception;
(but when div and table are present and the `tbody` or its first row is
missing, an `AttributeError` escapes — see the counterexample). -/
theorem c1_missing_structure_warns (soup : HtmlDoc) (players : List String)
    (now : PyDate)
    (h : soup.tableDiv = none ∨
      ∃ dv, soup.tableDiv = some dv ∧ dv.table = none) :
    ∃ w, extract_pitcher_starts soup players now = .ok ([w], []) := by
  rcases h with h | ⟨dv, hdv, ht⟩
  · exact ⟨"Could not find table with class 'table-scroll'",
      by unfold extract_pitcher_starts; simp only [h]⟩
  · exact ⟨"No table found within the 'table-scroll' div",
      by unfold extract_pitcher_starts; simp only [hdv, ht]⟩

/-- C1, witness: a document with no `table-scroll` div yields a warning
and the empty sequence. -/
theorem c1_witness :
    ∃ w, extract_pitcher_starts ⟨none⟩ [] ⟨1, 2025⟩ = .ok ([w], []) :=
  c1_missing_structure_warns ⟨none⟩ [] ⟨1, 2025⟩ (Or.inl rfl)

/-! ## Claim C9 -/

/-- C9: the entry `"NYY  (L)"` — an opponent code followed only by
whitespace and the handedness marker — is accepted by
`parse_pitcher_entry` with an empty pitcher name (the name group
captures whitespace, which stripping reduces to `""`), and such a
no-name record passes the empty player filter and is emitted by
`extract_pitcher_starts`. -/
theorem c9_empty_name_record :
    parse_pitcher_entry "NYY  (L)" = some ⟨"L", "", "v NYY"⟩ ∧
    extract_pitcher_starts
        ⟨some ⟨some ⟨true, [⟨["Team"], []⟩, ⟨[], ["NYY  (L)"]⟩]⟩⟩⟩ [] ⟨1, 2025⟩
      = .ok ([], [⟨"Unknown", "L", "", "v NYY"⟩]) := by
  constructor <;> rfl

/-! ## Helper lemmas: the lexicographic string order -/

theorem strLtList_irrefl : ∀ l : List Char, strLtList l l = false := by
  intro l
  induction l with
  | nil => rfl
  | cons x xs ih => simp [strLtList, ih]

theorem strLtList_asymm : ∀ (a b : List Char),
    strLtList a b = true → strLtList b a = false := by
  intro a
  induction a with
  | nil =>
    intro b h
    cases b with
    | nil => exact absurd h (by simp [strLtList])
    | cons y ys => simp [strLtList]
  | cons x xs ih =>
    intro b h
    cases b with
    | nil => exact absurd h (by simp [strLtList])
    | cons y ys =>
      simp only [strLtList] at h ⊢
      by_cases h1 : x.toNat < y.toNat
      · rw [if_neg (by omega), if_pos h1]
      · by_cases h2 : y.toNat < x.toNat
        · rw [if_neg h1, if_pos h2] at h
          exact absurd h (by simp)
        · rw [if_neg h1, if_neg h2] at h
          rw [if_neg h2, if_neg h1]
          exact ih ys h

theorem strLtList_le_trans : ∀ (a b c : List Char),
    strLtList b a = false → strLtList c b = false → strLtList c a = false := by
  intro a
  induction a with
  | nil =>
    intro b c _ _
    cases c with
    | nil => rfl
    | cons z zs =>
      cases b with
      | nil => rfl
      | cons y ys => rfl
  | cons x xs ih =>
    intro b c h1 h2
    cases b with
    | nil => exact absurd h1 (by simp [strLtList])
    | cons y ys =>
      cases c with
      | nil => exact absurd h2 (by simp [strLtList])
      | cons z zs =>
        simp only [strLtList] at h1 h2 ⊢
        by_cases hyx : y.toNat < x.toNat
        · rw [if_pos hyx] at h1
          exact absurd h1 (by simp)
        · by_cases hzy : z.toNat < y.toNat
          · rw [if_pos hzy] at h2
            exact absurd h2 (by simp)
          · rw [if_neg hyx] at h1
            rw [if_neg hzy] at h2
            rw [if_neg (by omega : ¬ z.toNat < x.toNat)]
            by_cases hxz : x.toNat < z.toNat
            · rw [if_pos hxz]
            · rw [if_neg hxz]
              have hxy : ¬ x.toNat < y.toNat := by omega
              have hyz : ¬ y.toNat < z.toNat := by omega
              rw [if_neg hxy] at h1
              rw [if_neg hyz] at h2
              exact ih ys zs h1 h2

theorem recLe_of_not (a b : Record) (h : recLe a b = false) :
    recLe b a = true ∧ b.Date ≠ a.Date := by
  unfold recLe strLe at h ⊢
  have hlt : strLtList b.Date.data a.Date.data = true := by
    cases hc : strLtList b.Date.data a.Date.data
    · rw [hc] at h; exact absurd h (by simp)
    · rfl
  refine ⟨by rw [strLtList_asymm _ _ hlt]; rfl, ?_⟩
  intro he
  rw [he] at hlt
  rw [strLtList_irrefl] at hlt
  exact absurd hlt (by simp)

theorem recLe_trans {a b c : Record}
    (h1 : recLe a b = true) (h2 : recLe b c = true) : recLe a c = true := by
  unfold recLe strLe at h1 h2 ⊢
  have hba : strLtList b.Date.data a.Date.data = false := by
    cases hc : strLtList b.Date.data a.Date.data
    · rfl
    · rw [hc] at h1; exact absurd h1 (by simp)
  have hcb : strLtList c.Date.data b.Date.data = false := by
    cases hc : strLtList c.Date.data b.Date.data
    · rfl
    · rw [hc] at h2; exact absurd h2 (by simp)
  rw [strLtList_le_trans _ _ _ hba hcb]
  rfl

/-! ## Helper lemmas: the stable sort -/

theorem insertLe_perm (x : Record) :
    ∀ l : List Record, List.Perm (insertLe x l) (x :: l) := by
  intro l
  induction l with
  | nil => exact List.Perm.refl _
  | cons y ys ih =>
    unfold insertLe
    by_cases h : recLe x y = true
    · rw [if_pos h]
    · rw [if_neg h]
      exact (ih.cons y).trans (List.Perm.swap x y ys)

theorem sortRecords_perm : ∀ l : List Record, List.Perm (sortRecords l) l := by
  intro l
  induction l with
  | nil => exact List.Perm.refl _
  | cons x xs ih =>
    exact (insertLe_perm x (sortRecords xs)).trans (ih.cons x)

theorem mem_insertLe {z x : Record} {l : List Record} :
    z ∈ insertLe x l ↔ z = x ∨ z ∈ l := by
  rw [(insertLe_perm x l).mem_iff, List.mem_cons]

theorem pairwise_insertLe {x : Record} : ∀ {l : List Record},
    l.Pairwise (fun a b => recLe a b = true) →
    (insertLe x l).Pairwise (fun a b => recLe a b = true) := by
  intro l
  induction l with
  | nil => intro _; simp [insertLe]
  | cons y ys ih =>
    intro h
    rw [List.pairwise_cons] at h
    obtain ⟨hy, hys⟩ := h
    unfold insertLe
    by_cases hc : recLe x y = true
    · rw [if_pos hc]
      refine List.Pairwise.cons ?_ (List.Pairwise.cons hy hys)
      intro z hz
      rcases List.mem_cons.mp hz with rfl | hz
      · exact hc
      · exact recLe_trans hc (hy z hz)
    · rw [if_neg hc]
      refine List.Pairwise.cons ?_ (ih hys)
      intro z hz
      rcases mem_insertLe.mp hz with rfl | hz
      · exact (recLe_of_not _ y (by simpa using hc)).1
      · exact hy z hz

theorem sorted_sortRecords : ∀ l : List Record,
    (sortRecords l).Pairwise (fun a b => recLe a b = true) := by
  intro l
  induction l with
  | nil => simp [sortRecords]
  | cons x xs ih => exact pairwise_insertLe ih

theorem insertLe_filter_date (x : Record) (d : String) : ∀ l : List Record,
    (insertLe x l).filter (fun r => r.Date == d)
      = (x :: l).filter (fun r => r.Date == d) := by
  intro l
  induction l with
  | nil => rfl
  | cons y ys ih =>
    unfold insertLe
    by_cases hc : recLe x y = true
    · rw [if_pos hc]
    · rw [if_neg hc]
      have hne : y.Date ≠ x.Date := (recLe_of_not x y (by simpa using hc)).2
      by_cases hx : (x.Date == d) = true
      · have hy : (y.Date == d) = false := by
          cases hyc : (y.Date == d)
          · rfl
          · exact absurd ((beq_iff_eq.mp hyc).trans
              (beq_iff_eq.mp hx).symm) hne
        simp only [List.filter_cons, hx, hy, ih]
        simp [List.filter_cons, hx, hy]
      · simp only [List.filter_cons, hx]
        by_cases hy : (y.Date == d) = true
        · simp only [hy, if_pos rfl]
          simp only [ih, List.filter_cons, hx]
          simp
        · simp only [hy]
          simp only [ih, List.filter_cons, hx]
          simp

theorem filter_sortRecords (d : String) : ∀ l : List Record,
    (sortRecords l).filter (fun r => r.Date == d)
      = l.filter (fun r => r.Date == d) := by
  intro l
  induction l with
  | nil => rfl
  | cons x xs ih =>
    show (insertLe x (sortRecords xs)).filter _ = _
    rw [insertLe_filter_date, List.filter_cons, List.filter_cons, ih]

/-! ## Claim C5 -/

theorem processCell_filter (dm : List (Nat × String)) (players : List String)
    (ci : Nat × String) :
    processCell dm players ci
      = match processCell dm [] ci with
        | some r =>
          if players.isEmpty || players.contains (pyLower r.Pitcher) then some r
          else none
        | none => none := by
  unfold processCell
  rcases hp : parse_pitcher_entry ci.2 with _ | pe
  · rfl
  · rfl

theorem filterMap_processCell (dm : List (Nat × String)) (players : List String) :
    ∀ l : List (Nat × String),
      l.filterMap (processCell dm players)
        = (l.filterMap (processCell dm [])).filter
            (fun r => players.isEmpty || players.contains (pyLower r.Pitcher)) := by
  intro l
  induction l with
  | nil => rfl
  | cons ci l ih =>
    rw [List.filterMap_cons, List.filterMap_cons, processCell_filter dm players ci]
    rcases hc : processCell dm [] ci with _ | r
    · simpa using ih
    · by_cases hpass :
        (players.isEmpty || players.contains (pyLower r.Pitcher)) = true
      · simp only [hpass, if_pos rfl, List.filter_cons, hpass, ih]
        simp
      · simp only [hpass, List.filter_cons, ih]
        simp [hpass]

theorem assembleRows_players (t : HtmlTable) (dm : List (Nat × String))
    (players : List String) :
    assembleRows t dm players
      = (assembleRows t dm []).filter
          (fun r => players.isEmpty || players.contains (pyLower r.Pitcher)) := by
  unfold assembleRows
  generalize t.rows.drop 1 = rs
  induction rs with
  | nil => rfl
  | cons row rs ih =>
    rw [List.map_cons, List.map_cons, List.flatten_cons, List.flatten_cons,
      List.filter_append, ← ih]
    congr 1
    exact filterMap_processCell dm players _

/-- C5: with an empty player filter every successfully parsed cell yields
a record; with a non-empty filter, exactly those records whose lowercased
pitcher name is a member of the filter are returned. -/
theorem c5_player_filter (soup : HtmlDoc) (players : List String) (now : PyDate)
    (w w0 : List String) (out out0 : List Record)
    (h1 : extract_pitcher_starts soup players now = .ok (w, out))
    (h0 : extract_pitcher_starts soup [] now = .ok (w0, out0)) :
    (players = [] → out = out0) ∧
    (∀ r, r ∈ out ↔
      (r ∈ out0 ∧ (players = [] ∨ players.contains (pyLower r.Pitcher) = true))) := by
  obtain ⟨td⟩ := soup
  rcases td with _ | ⟨tOpt⟩
  · unfold extract_pitcher_starts at h1 h0
    simp only [Except.ok.injEq, Prod.mk.injEq] at h1 h0
    obtain ⟨-, hout⟩ := h1
    obtain ⟨-, hout0⟩ := h0
    subst hout
    subst hout0
    simp
  · rcases tOpt with _ | t
    · unfold extract_pitcher_starts at h1 h0
      simp only [Except.ok.injEq, Prod.mk.injEq] at h1 h0
      obtain ⟨-, hout⟩ := h1
      obtain ⟨-, hout0⟩ := h0
      subst hout
      subst hout0
      simp
    · unfold extract_pitcher_starts at h1 h0
      rcases hdm : extract_dates_from_headers ⟨some ⟨some t⟩⟩ now with e | dm
      · rw [hdm] at h1
        exact absurd h1 (by simp)
      · rw [hdm] at h1 h0
        simp only [Except.ok.injEq, Prod.mk.injEq] at h1 h0
        obtain ⟨-, hout⟩ := h1
        obtain ⟨-, hout0⟩ := h0
        subst hout
        subst hout0
        constructor
        · rintro rfl
          rfl
        · intro r
          rw [(sortRecords_perm _).mem_iff, (sortRecords_perm _).mem_iff,
            assembleRows_players t dm players, List.mem_filter]
          constructor
          · rintro ⟨hm, hpass⟩
            refine ⟨hm, ?_⟩
            rcases Bool.or_eq_true .. |>.mp hpass with he | hc
            · exact Or.inl (List.isEmpty_iff.mp he)
            · exact Or.inr hc
          · rintro ⟨hm, hpass⟩
            refine ⟨hm, ?_⟩
            rcases hpass with rfl | hc
            · rfl
            · rw [hc]
              simp

/-- C5, witness: a concrete document filtered by `["jane doe"]` keeps
exactly the Jane Doe record. -/
theorem c5_witness :
    (⟨"Unknown", "R", "Jane Doe", "v BOS"⟩ : Record)
        ∈ [(⟨"Unknown", "R", "Jane Doe", "v BOS"⟩ : Record)] ↔
      ((⟨"Unknown", "R", "Jane Doe", "v BOS"⟩ : Record)
          ∈ [(⟨"Unknown", "R", "Jane Doe", "v BOS"⟩ : Record),
             ⟨"Unknown", "L", "John Smith", "@ NYY"⟩] ∧
        (["jane doe"] = [] ∨
          ["jane doe"].contains (pyLower "Jane Doe") = true)) :=
  (c5_player_filter
    ⟨some ⟨some ⟨true, [⟨["Team"], []⟩,
      ⟨[], ["BOS Jane Doe (R)", "@ NYY John Smith (L)"]⟩]⟩⟩⟩
    ["jane doe"] ⟨1, 2025⟩ [] []
    [⟨"Unknown", "R", "Jane Doe", "v BOS"⟩]
    [⟨"Unknown", "R", "Jane Doe", "v BOS"⟩, ⟨"Unknown", "L", "John Smith", "@ NYY"⟩]
    (by rfl) (by rfl)).2 ⟨"Unknown", "R", "Jane Doe", "v BOS"⟩

/-! ## Claim C6 -/

/-- C6: the output of `extract_pitcher_starts` is sorted ascending by the
`Date` field under lexicographic string comparison (`recLe`), and for
every date value the records carrying it appear exactly as in the
unsorted row-by-row, column-by-column assembly — the sort is stable. -/
theorem c6_sorted_stable (soup : HtmlDoc) (players : List String) (now : PyDate)
    (dv : TableDiv) (t : HtmlTable) (dm : List (Nat × String))
    (w : List String) (out : List Record)
    (hdv : soup.tableDiv = some dv) (ht : dv.table = some t)
    (hdm : extract_dates_from_headers soup now = .ok dm)
    (hex : extract_pitcher_starts soup players now = .ok (w, out)) :
    out.Pairwise (fun a b => recLe a b = true) ∧
    ∀ d, out.filter (fun r => r.Date == d)
        = (assembleRows t dm players).filter (fun r => r.Date == d) := by
  unfold extract_pitcher_starts at hex
  simp only [hdv, ht, hdm] at hex
  simp only [Except.ok.injEq, Prod.mk.injEq] at hex
  obtain ⟨-, hout⟩ := hex
  subst hout
  exact ⟨sorted_sortRecords _, fun d => filter_sortRecords d _⟩

/-- C6, witness: on a concrete document the output is sorted and its
per-date sublists agree with the assembly order. -/
theorem c6_witness :
    ([(⟨"Unknown", "R", "Jane Doe", "v BOS"⟩ : Record),
      ⟨"Unknown", "L", "John Smith", "@ NYY"⟩].Pairwise
        (fun a b => recLe a b = true)) ∧
    ∀ d, ([(⟨"Unknown", "R", "Jane Doe", "v BOS"⟩ : Record),
      ⟨"Unknown", "L", "John Smith", "@ NYY"⟩].filter (fun r => r.Date == d))
        = (assembleRows ⟨true, [⟨["Team"], []⟩,
            ⟨[], ["BOS Jane Doe (R)", "@ NYY John Smith (L)"]⟩]⟩ [] []).filter
            (fun r => r.Date == d) :=
  c6_sorted_stable
    ⟨some ⟨some ⟨true, [⟨["Team"], []⟩,
      ⟨[], ["BOS Jane Doe (R)", "@ NYY John Smith (L)"]⟩]⟩⟩⟩
    [] ⟨1, 2025⟩
    ⟨some ⟨true, [⟨["Team"], []⟩,
      ⟨[], ["BOS Jane Doe (R)", "@ NYY John Smith (L)"]⟩]⟩⟩
    ⟨true, [⟨["Team"], []⟩, ⟨[], ["BOS Jane Doe (R)", "@ NYY John Smith (L)"]⟩]⟩
    [] []
    [⟨"Unknown", "R", "Jane Doe", "v BOS"⟩, ⟨"Unknown", "L", "John Smith", "@ NYY"⟩]
    (by rfl) (by rfl) (by rfl) (by rfl)

/-! ## Claim C10 -/

theorem decDigitsAux_head : ∀ (fuel n : Nat), n < fuel →
    ∃ c cs, decDigitsAux fuel n = c :: cs ∧ 48 ≤ c.toNat ∧ c.toNat ≤ 57 := by
  intro fuel
  induction fuel with
  | zero => intro n h; omega
  | succ f ih =>
    intro n h
    unfold decDigitsAux
    by_cases h10 : n < 10
    · rw [if_pos h10]
      have hb : 48 ≤ (Nat.digitChar n).toNat ∧ (Nat.digitChar n).toNat ≤ 57 := by
        interval_cases n <;> exact (by decide)
      exact ⟨Nat.digitChar n, [], rfl, hb.1, hb.2⟩
    · rw [if_neg h10]
      have hdiv : n / 10 < n := Nat.div_lt_self (by omega) (by omega)
      obtain ⟨c, cs, heq, h1, h2⟩ := ih (n / 10) (by omega)
      exact ⟨c, cs ++ [Nat.digitChar (n % 10)], by rw [heq]; rfl, h1, h2⟩

theorem padZero_head (w y : Nat) :
    ∃ c cs, padZero w (decDigits y) = c :: cs ∧ 48 ≤ c.toNat ∧ c.toNat ≤ 57 := by
  unfold padZero
  rcases hk : w - (decDigits y).length with _ | k
  · obtain ⟨c, cs, heq, h1, h2⟩ := decDigitsAux_head (y + 1) y (by omega)
    exact ⟨c, cs, heq, h1, h2⟩
  · refine ⟨'0', List.replicate k '0' ++ decDigits y, ?_, by decide, by decide⟩
    rw [List.replicate_succ]
    rfl

theorem formatDate_head (y m d : Nat) :
    ∃ c cs, (formatDate y m d).data = c :: cs ∧ 48 ≤ c.toNat ∧ c.toNat ≤ 57 := by
  obtain ⟨c, cs, heq, h1, h2⟩ := padZero_head 4 y
  refine ⟨c, cs ++ '-' :: (padZero 2 (decDigits m) ++ '-' :: padZero 2 (decDigits d)),
    ?_, h1, h2⟩
  show padZero 4 (decDigits y)
      ++ '-' :: (padZero 2 (decDigits m) ++ '-' :: padZero 2 (decDigits d)) = _
  rw [heq]
  rfl

theorem processHeader_shape {th : String} {now : PyDate} {v : String}
    (h : processHeader th now = some v) : ∃ y m d, v = formatDate y m d := by
  unfold processHeader at h
  rcases hs : reSearch datePattern (pyStrip th.data) with _ | caps
  · rw [hs] at h
    exact absurd h (by simp)
  · simp only [hs] at h
    rcases hsp : pySplit '/' ((capGet caps 2).getD [])
      with _ | ⟨ms, _ | ⟨ds, _ | ⟨x, xs⟩⟩⟩ <;> simp only [hsp] at h
    · exact absurd h (by simp)
    · exact absurd h (by simp)
    · split at h
      · cases h
        exact ⟨_, _, _, rfl⟩
      · exact absurd h (by simp)
    · exact absurd h (by simp)

theorem record_mem_date_shape {t : HtmlTable} {dm : List (Nat × String)}
    {players : List String} {r : Record} (hr : r ∈ assembleRows t dm players) :
    r.Date = "Unknown" ∨ ∃ kv, kv ∈ dm ∧ r.Date = kv.2 := by
  unfold assembleRows at hr
  rw [List.mem_flatten] at hr
  obtain ⟨l, hl, hrl⟩ := hr
  rw [List.mem_map] at hl
  obtain ⟨row, -, rfl⟩ := hl
  unfold processRow at hrl
  rw [List.mem_filterMap] at hrl
  obtain ⟨ci, -, hcell⟩ := hrl
  unfold processCell at hcell
  split at hcell
  · exact absurd hcell (by simp)
  · split at hcell
    · cases hcell
      rcases hdg : dictGet dm (ci.1 - 1) with _ | v
      · left
        rfl
      · right
        unfold dictGet at hdg
        rcases hf : dm.find? (fun p => p.1 == ci.1 - 1) with _ | p
        · rw [hf] at hdg
          exact absurd hdg (by simp)
        · rw [hf] at hdg
          simp only [Option.map_some', Option.some.injEq] at hdg
          exact ⟨p, List.mem_of_find?_eq_some hf, hdg.symm⟩
    · exact absurd hcell (by simp)

theorem extract_dates_ok_shape {soup : HtmlDoc} {now : PyDate}
    {dm : List (Nat × String)}
    (h : extract_dates_from_headers soup now = .ok dm)
    {kv : Nat × String} (hkv : kv ∈ dm) :
    ∃ y m d, kv.2 = formatDate y m d := by
  unfold extract_dates_from_headers at h
  split at h
  · exact absurd h (by simp)
  · split at h
    · exact absurd h (by simp)
    · split at h
      · split at h
        · exact absurd h (by simp)
        · simp only [Except.ok.injEq] at h
          subst h
          unfold buildDateMap at hkv
          rw [List.mem_filterMap] at hkv
          obtain ⟨p, -, hmap⟩ := hkv
          rcases hph : processHeader p.2 now with _ | d
          · rw [hph] at hmap
            exact absurd hmap (by simp)
          · rw [hph] at hmap
            simp only [Option.map_some', Option.some.injEq] at hmap
            obtain ⟨y, m, dd, hfmt⟩ := processHeader_shape hph
            refine ⟨y, m, dd, ?_⟩
            rw [← hmap]
            exact hfmt
      · exact absurd h (by simp)

/-- C10: in every output of `extract_pitcher_starts`, all records with
date `"Unknown"` come after all records with a resolved date: every
resolved date string starts with a digit, which compares lexicographically
below the letter-initial `"Unknown"`. -/
theorem c10_unknown_last (soup : HtmlDoc) (players : List String) (now : PyDate)
    (w : List String) (out : List Record)
    (hex : extract_pitcher_starts soup players now = .ok (w, out)) :
    ∀ i j (hi : i < out.length) (hj : j < out.length), i ≤ j →
      (out.get ⟨i, hi⟩).Date = "Unknown" → (out.get ⟨j, hj⟩).Date = "Unknown" := by
  obtain ⟨td⟩ := soup
  rcases td with _ | ⟨tOpt⟩
  · unfold extract_pitcher_starts at hex
    simp only [Except.ok.injEq, Prod.mk.injEq] at hex
    obtain ⟨-, hout⟩ := hex
    subst hout
    intro i j hi
    exact absurd hi (by simp)
  · rcases tOpt with _ | t
    · unfold extract_pitcher_starts at hex
      simp only [Except.ok.injEq, Prod.mk.injEq] at hex
      obtain ⟨-, hout⟩ := hex
      subst hout
      intro i j hi
      exact absurd hi (by simp)
    · unfold extract_pitcher_starts at hex
      rcases hdm : extract_dates_from_headers ⟨some ⟨some t⟩⟩ now with e | dm
      · rw [hdm] at hex
        exact absurd hex (by simp)
      · rw [hdm] at hex
        simp only [Except.ok.injEq, Prod.mk.injEq] at hex
        obtain ⟨-, hout⟩ := hex
        subst hout
        intro i j hi hj hij hUi
        rcases Nat.eq_or_lt_of_le hij with rfl | hlt
        · exact hUi
        · have hPW := sorted_sortRecords (assembleRows t dm players)
          have hle := List.pairwise_iff_get.mp hPW ⟨i, hi⟩ ⟨j, hj⟩ hlt
          have hmem : (sortRecords (assembleRows t dm players)).get ⟨j, hj⟩
              ∈ assembleRows t dm players :=
            (sortRecords_perm _).mem_iff.mp (List.get_mem _ _ _)
          rcases record_mem_date_shape hmem with h | ⟨kv, hkv, hdate⟩
          · exact h
          · exfalso
            obtain ⟨y, m, dd, hfmt⟩ := extract_dates_ok_shape hdm hkv
            obtain ⟨c, cs, hdata, h48, h57⟩ := formatDate_head y m dd
            unfold recLe strLe at hle
            rw [hUi] at hle
            have hdj : ((sortRecords (assembleRows t dm players)).get
                ⟨j, hj⟩).Date.data = c :: cs := by
              rw [hdate, hfmt, hdata]
            rw [hdj] at hle
            have hUdata : "Unknown".data = 'U' :: ['n', 'k', 'n', 'o', 'w', 'n'] := rfl
            rw [hUdata] at hle
            have hUn : ('U' : Char).toNat = 85 := rfl
            have hltU : strLtList (c :: cs) ('U' :: ['n', 'k', 'n', 'o', 'w', 'n'])
                = true := by
              simp only [strLtList]
              rw [if_pos (by omega)]
            rw [hltU] at hle
            exact absurd hle (by simp)

/-- C10, witness: a concrete run whose output mixes a resolved date and
`"Unknown"` records keeps the `"Unknown"` ones at the end. -/
theorem c10_witness :
    (([⟨"2025-04-02", "L", "John Smith", "@ NYY"⟩,
       (⟨"Unknown", "R", "Jane Doe", "v BOS"⟩ : Record),
       ⟨"Unknown", "L", "Bob Ray", "v CHC"⟩] : List Record).get
        ⟨2, by decide⟩).Date = "Unknown" :=
  c10_unknown_last
    ⟨some ⟨some ⟨true, [⟨["Team", "Wed 4/2", "Thu 4/3"], []⟩,
      ⟨[], ["BOS Jane Doe (R)", "@ NYY John Smith (L)"]⟩,
      ⟨[], ["CHC Bob Ray (L)"]⟩]⟩⟩⟩
    [] ⟨4, 2025⟩ []
    [⟨"2025-04-02", "L", "John Smith", "@ NYY"⟩,
     ⟨"Unknown", "R", "Jane Doe", "v BOS"⟩,
     ⟨"Unknown", "L", "Bob Ray", "v CHC"⟩]
    (by rfl) 1 2 (by decide) (by decide) (by decide) (by rfl)

/-! ## Soundness and completeness of the matcher for `MatchesC` -/

theorem starAux_sound {p : Char → Bool} :
    ∀ (s : List Char) (k : List Char → Option Caps) (out : Caps),
      starAux p s k = some out →
      ∃ pre rest, s = pre ++ rest ∧ (∀ c ∈ pre, p c = true) ∧ k rest = some out := by
  intro s
  induction s with
  | nil =>
    intro k out h
    exact ⟨[], [], rfl, by simp, h⟩
  | cons c cs ih =>
    intro k out h
    unfold starAux at h
    by_cases hpc : p c = true
    · rw [if_pos hpc] at h
      rcases hrec : starAux p cs k with _ | r
      · rw [hrec] at h
        exact ⟨[], c :: cs, rfl, by simp, h⟩
      · rw [hrec] at h
        have hro : r = out := by
          have h' : some r = some out := h
          simpa using h'
        subst hro
        obtain ⟨pre, rest, heq, hall, hk⟩ := ih k r hrec
        refine ⟨c :: pre, rest, by rw [heq]; rfl, ?_, hk⟩
        intro x hx
        rcases List.mem_cons.mp hx with rfl | hx
        · exact hpc
        · exact hall x hx
    · rw [if_neg hpc] at h
      exact ⟨[], c :: cs, rfl, by simp, h⟩

theorem matchAux_sound :
    ∀ (r : RE) (s : List Char) (k : List Char → Option Caps) (out : Caps),
      matchAux r s k = some out →
      ∃ rest caps base, MatchesC r s rest caps ∧ k rest = some base ∧
        out = caps ++ base := by
  intro r
  induction r with
  | lit c =>
    intro s k out h
    rcases s with _ | ⟨x, rest⟩
    · exact absurd h (by simp [matchAux])
    · have h' : (if x = c then k rest else none) = some out := h
      by_cases hx : x = c
      · rw [if_pos hx] at h'
        subst hx
        exact ⟨rest, [], out, MatchesC.lit x rest, h', by simp⟩
      · rw [if_neg hx] at h'
        exact absurd h' (by simp)
  | cls p =>
    intro s k out h
    rcases s with _ | ⟨x, rest⟩
    · exact absurd h (by simp [matchAux])
    · have h' : (if p x = true then k rest else none) = some out := h
      by_cases hx : p x = true
      · rw [if_pos hx] at h'
        exact ⟨rest, [], out, MatchesC.cls rest hx, h', by simp⟩
      · rw [if_neg hx] at h'
        exact absurd h' (by simp)
  | seq a b iha ihb =>
    intro s k out h
    have h' : matchAux a s (fun rest => matchAux b rest k) = some out := h
    obtain ⟨mid, ca, base1, hma, hmb, hout⟩ := iha s _ out h'
    obtain ⟨rest, cb, base, hmb2, hk, hbase1⟩ := ihb mid k base1 hmb
    exact ⟨rest, ca ++ cb, base, MatchesC.seq hma hmb2, hk,
      by rw [hout, hbase1, List.append_assoc]⟩
  | opt a iha =>
    intro s k out h
    have h' : (match matchAux a s k with
        | some r => some r
        | none => k s) = some out := h
    rcases hma : matchAux a s k with _ | r
    · rw [hma] at h'
      exact ⟨s, [], out, MatchesC.optNone a s, h', by simp⟩
    · rw [hma] at h'
      have hro : r = out := by simpa using h'
      subst hro
      obtain ⟨rest, caps, base, hm, hk, hout⟩ := iha s k r hma
      exact ⟨rest, caps, base, MatchesC.optSome hm, hk, hout⟩
  | star p =>
    intro s k out h
    obtain ⟨pre, rest, heq, hall, hk⟩ := starAux_sound s k out h
    refine ⟨rest, [], out, ?_, hk, by simp⟩
    rw [heq]
    exact MatchesC.star pre rest hall
  | plus p =>
    intro s k out h
    rcases s with _ | ⟨x, rest0⟩
    · exact absurd h (by simp [matchAux])
    · have h' : (if p x = true then starAux p rest0 k else none) = some out := h
      by_cases hpx : p x = true
      · rw [if_pos hpx] at h'
        obtain ⟨pre, rest, heq, hall, hk⟩ := starAux_sound rest0 k out h'
        refine ⟨rest, [], out, ?_, hk, by simp⟩
        rw [heq]
        exact MatchesC.plus pre rest hpx hall
      · rw [if_neg hpx] at h'
        exact absurd h' (by simp)
  | grp n a iha =>
    intro s k out h
    have h' : matchAux a s
        (fun rest => (k rest).map
          (fun caps => (n, s.take (s.length - rest.length)) :: caps)) = some out := h
    obtain ⟨rest, ca, base1, hm, hk1, hout⟩ := iha s _ out h'
    rcases hk : k rest with _ | base
    · rw [hk] at hk1
      exact absurd hk1 (by simp)
    · rw [hk] at hk1
      simp only [Option.map_some', Option.some.injEq] at hk1
      refine ⟨rest, ca ++ [(n, s.take (s.length - rest.length))], base,
        MatchesC.grp hm, hk, ?_⟩
      rw [hout, ← hk1]
      simp
  | dollar =>
    intro s k out h
    have h' : (if s = [] ∨ s = ['\n'] then k s else none) = some out := h
    by_cases hcond : s = [] ∨ s = ['\n']
    · rw [if_pos hcond] at h'
      rcases hcond with rfl | rfl
      · exact ⟨[], [], out, MatchesC.dollarNil, h', by simp⟩
      · exact ⟨['\n'], [], out, MatchesC.dollarNl, h', by simp⟩
    · rw [if_neg hcond] at h'
      exact absurd h' (by simp)

theorem starAux_isSome {p : Char → Bool} :
    ∀ (s : List Char) (k : List Char → Option Caps),
      (k s).isSome = true → (starAux p s k).isSome = true := by
  intro s
  induction s with
  | nil => intro k h; exact h
  | cons c cs _ =>
    intro k h
    unfold starAux
    by_cases hpc : p c = true
    · rw [if_pos hpc]
      rcases hrec : starAux p cs k with _ | r
      · exact h
      · rfl
    · rw [if_neg hpc]
      exact h

theorem starAux_complete {p : Char → Bool} :
    ∀ (pre rest : List Char) (k : List Char → Option Caps),
      (∀ c ∈ pre, p c = true) → (k rest).isSome = true →
      (starAux p (pre ++ rest) k).isSome = true := by
  intro pre
  induction pre with
  | nil =>
    intro rest k _ h
    exact starAux_isSome rest k h
  | cons c pre ih =>
    intro rest k hall h
    have hpc : p c = true := hall c (List.mem_cons_self _ _)
    show (starAux p (c :: (pre ++ rest)) k).isSome = true
    unfold starAux
    rw [if_pos hpc]
    rcases hrec : starAux p (pre ++ rest) k with _ | r
    · have := ih rest k (fun x hx => hall x (List.mem_cons_of_mem _ hx)) h
      rw [hrec] at this
      exact absurd this (by simp)
    · rfl

theorem matchAux_complete :
    ∀ {r : RE} {s rest : List Char} {caps : Caps}, MatchesC r s rest caps →
      ∀ (k : List Char → Option Caps), (k rest).isSome = true →
      (matchAux r s k).isSome = true := by
  intro r s rest caps hm
  induction hm with
  | lit c rest =>
    intro k h
    show (if c = c then k rest else none).isSome = true
    rw [if_pos rfl]
    exact h
  | cls rest hp =>
    intro k h
    rename_i p c
    show (if p c = true then k rest else none).isSome = true
    rw [if_pos hp]
    exact h
  | seq hma hmb iha ihb =>
    intro k h
    rename_i a b s mid rest ca cb
    show (matchAux a s (fun rest => matchAux b rest k)).isSome = true
    exact iha _ (ihb k h)
  | optSome hma iha =>
    intro k h
    rename_i a s rest ca
    show (match matchAux a s k with
        | some r => some r
        | none => k s).isSome = true
    rcases hrec : matchAux a s k with _ | r
    · have := iha k h
      rw [hrec] at this
      exact absurd this (by simp)
    · rfl
  | optNone a s =>
    intro k h
    show (match matchAux a s k with
        | some r => some r
        | none => k s).isSome = true
    rcases hrec : matchAux a s k with _ | r
    · exact h
    · rfl
  | star pre rest hall =>
    intro k h
    exact starAux_complete pre rest k hall h
  | plus pre rest hpc hall =>
    intro k h
    rename_i p c
    show (if p c = true then starAux p (pre ++ rest) k else none).isSome = true
    rw [if_pos hpc]
    exact starAux_complete pre rest k hall h
  | grp hma iha =>
    intro k h
    rename_i n a s rest ca
    show (matchAux a s (fun r2 => (k r2).map
      (fun caps => (n, s.take (s.length - r2.length)) :: caps))).isSome = true
    apply iha
    rcases hk : k rest with _ | base
    · rw [hk] at h
      exact absurd h (by simp)
    · rfl
  | dollarNil =>
    intro k h
    show (if ([] : List Char) = [] ∨ ([] : List Char) = ['\n']
        then k [] else none).isSome = true
    rw [if_pos (Or.inl rfl)]
    exact h
  | dollarNl =>
    intro k h
    show (if ['\n'] = ([] : List Char) ∨ ['\n'] = ['\n']
        then k ['\n'] else none).isSome = true
    rw [if_pos (Or.inr rfl)]
    exact h

/-! ## Inversion of `MatchesC` on the entry pattern -/

theorem take_of_append (pre rest : List Char) :
    (pre ++ rest).take ((pre ++ rest).length - rest.length) = pre := by
  have hlen : (pre ++ rest).length - rest.length = pre.length := by
    simp
  rw [hlen]
  exact List.take_left pre rest

theorem matches_lit_decomp {c : Char} {s rest : List Char} {caps : Caps}
    (h : MatchesC (.lit c) s rest caps) : s = c :: rest ∧ caps = [] := by
  cases h
  exact ⟨rfl, rfl⟩

theorem matches_cls_decomp {p : Char → Bool} {s rest : List Char} {caps : Caps}
    (h : MatchesC (.cls p) s rest caps) :
    ∃ x, s = x :: rest ∧ p x = true ∧ caps = [] := by
  cases h with
  | cls rest hp => exact ⟨_, rfl, hp, rfl⟩

theorem matches_seq_decomp {a b : RE} {s rest : List Char} {caps : Caps}
    (h : MatchesC (.seq a b) s rest caps) :
    ∃ mid ca cb, MatchesC a s mid ca ∧ MatchesC b mid rest cb ∧
      caps = ca ++ cb := by
  cases h with
  | seq h1 h2 => exact ⟨_, _, _, h1, h2, rfl⟩

theorem matches_opt_decomp {a : RE} {s rest : List Char} {caps : Caps}
    (h : MatchesC (.opt a) s rest caps) :
    MatchesC a s rest caps ∨ (rest = s ∧ caps = []) := by
  cases h with
  | optSome h1 => exact Or.inl h1
  | optNone => exact Or.inr ⟨rfl, rfl⟩

theorem matches_star_decomp {p : Char → Bool} {s rest : List Char} {caps : Caps}
    (h : MatchesC (.star p) s rest caps) :
    ∃ pre, s = pre ++ rest ∧ (∀ c ∈ pre, p c = true) ∧ caps = [] := by
  cases h with
  | star pre rest hall => exact ⟨pre, rfl, hall, rfl⟩

theorem matches_plus_decomp {p : Char → Bool} {s rest : List Char} {caps : Caps}
    (h : MatchesC (.plus p) s rest caps) :
    ∃ c pre, s = c :: (pre ++ rest) ∧ p c = true ∧ (∀ x ∈ pre, p x = true) ∧
      caps = [] := by
  cases h with
  | plus pre rest hc hall => exact ⟨_, pre, rfl, hc, hall, rfl⟩

theorem matches_grp_decomp {n : Nat} {a : RE} {s rest : List Char} {caps : Caps}
    (h : MatchesC (.grp n a) s rest caps) :
    ∃ ca, MatchesC a s rest ca ∧
      caps = ca ++ [(n, s.take (s.length - rest.length))] := by
  cases h with
  | grp h1 => exact ⟨_, h1, rfl⟩

theorem matches_dollar_decomp {s rest : List Char} {caps : Caps}
    (h : MatchesC .dollar s rest caps) :
    s = rest ∧ (s = [] ∨ s = ['\n']) ∧ caps = [] := by
  cases h with
  | dollarNil => exact ⟨rfl, Or.inl rfl, rfl⟩
  | dollarNl => exact ⟨rfl, Or.inr rfl, rfl⟩

theorem matches_optat_decomp {s rest : List Char} {caps : Caps}
    (h : MatchesC (.opt (.grp 1 (.lit '@'))) s rest caps) :
    ∃ at1, s = at1 ++ rest ∧ (at1 = [] ∨ at1 = ['@']) ∧
      caps = if at1 = ['@'] then [(1, ['@'])] else [] := by
  rcases matches_opt_decomp h with hg | ⟨hr, hc⟩
  · obtain ⟨ca, hl, hcap⟩ := matches_grp_decomp hg
    obtain ⟨hs, hca⟩ := matches_lit_decomp hl
    subst hs
    subst hca
    refine ⟨['@'], rfl, Or.inr rfl, ?_⟩
    rw [hcap, if_pos rfl]
    have h1 : ('@' :: rest).length - rest.length = 1 := by simp
    rw [h1]
    rfl
  · subst hr
    subst hc
    refine ⟨[], by simp, Or.inl rfl, ?_⟩
    rw [if_neg (by simp)]

theorem matches_code_decomp {s rest : List Char} {caps : Caps}
    (h : MatchesC (.grp 2 (.seq (.cls upperChar)
        (.seq (.cls upperChar) (.cls upperChar)))) s rest caps) :
    ∃ code, s = code ++ rest ∧ code.length = 3 ∧
      (∀ c ∈ code, upperChar c = true) ∧ caps = [(2, code)] := by
  obtain ⟨ca, hseq, hcap⟩ := matches_grp_decomp h
  obtain ⟨m1, c1a, c1b, hc1, hrest, hca⟩ := matches_seq_decomp hseq
  obtain ⟨x1, hs1, hp1, hca1⟩ := matches_cls_decomp hc1
  obtain ⟨m2, c2a, c2b, hc2, hc3, hcb⟩ := matches_seq_decomp hrest
  obtain ⟨x2, hs2, hp2, hca2⟩ := matches_cls_decomp hc2
  obtain ⟨x3, hs3, hp3, hca3⟩ := matches_cls_decomp hc3
  subst hs2
  subst hs3
  subst hs1
  refine ⟨[x1, x2, x3], rfl, rfl, ?_, ?_⟩
  · intro c hc
    rcases List.mem_cons.mp hc with rfl | hc
    · exact hp1
    · rcases List.mem_cons.mp hc with rfl | hc
      · exact hp2
      · rcases List.mem_cons.mp hc with rfl | hc
        · exact hp3
        · exact absurd hc (by simp)
  · rw [hcap]
    subst hca
    subst hca1
    subst hcb
    subst hca2
    subst hca3
    have h3 : (x1 :: x2 :: x3 :: rest).length - rest.length = 3 := by
      simp
      omega
    rw [h3]
    rfl

theorem matches_name_decomp {s rest : List Char} {caps : Caps}
    (h : MatchesC (.grp 3 (.plus nameChar)) s rest caps) :
    ∃ nm, s = nm ++ rest ∧ nm ≠ [] ∧ (∀ c ∈ nm, nameChar c = true) ∧
      caps = [(3, nm)] := by
  obtain ⟨ca, hp, hcap⟩ := matches_grp_decomp h
  obtain ⟨c, pre, hs, hc, hall, hca⟩ := matches_plus_decomp hp
  subst hs
  refine ⟨c :: pre, rfl, by simp, ?_, ?_⟩
  · intro x hx
    rcases List.mem_cons.mp hx with rfl | hx
    · exact hc
    · exact hall x hx
  · rw [hcap]
    subst hca
    have := take_of_append (c :: pre) rest
    rw [show c :: (pre ++ rest) = (c :: pre) ++ rest from rfl, this]
    rfl

theorem matches_hand_decomp {s rest : List Char} {caps : Caps}
    (h : MatchesC (.grp 4 (.cls handChar)) s rest caps) :
    ∃ hnd, s = hnd :: rest ∧ (hnd = 'L' ∨ hnd = 'R') ∧
      caps = [(4, [hnd])] := by
  obtain ⟨ca, hc, hcap⟩ := matches_grp_decomp h
  obtain ⟨x, hs, hp, hca⟩ := matches_cls_decomp hc
  subst hs
  refine ⟨x, rfl, ?_, ?_⟩
  · unfold handChar at hp
    rcases Bool.or_eq_true .. |>.mp hp with h1 | h1
    · exact Or.inl (by simpa using h1)
    · exact Or.inr (by simpa using h1)
  · rw [hcap]
    subst hca
    have h1 : (x :: rest).length - rest.length = 1 := by simp
    rw [h1]
    rfl

theorem entry_decomp {s rest : List Char} {caps : Caps}
    (h : MatchesC entryPattern s rest caps) :
    ∃ (at1 sp1 code sp2 nm sp3 : List Char) (hnd : Char),
      s = at1 ++ (sp1 ++ (code ++ (sp2 ++ (nm ++ (sp3 ++ '(' :: hnd :: ')' :: rest))))) ∧
      (at1 = [] ∨ at1 = ['@']) ∧
      (∀ c ∈ sp1, pySpace c = true) ∧
      code.length = 3 ∧ (∀ c ∈ code, upperChar c = true) ∧
      (∀ c ∈ sp2, pySpace c = true) ∧
      nm ≠ [] ∧ (∀ c ∈ nm, nameChar c = true) ∧
      (∀ c ∈ sp3, pySpace c = true) ∧
      (hnd = 'L' ∨ hnd = 'R') ∧
      (rest = [] ∨ rest = ['\n']) ∧
      caps = (if at1 = ['@'] then [(1, ['@'])] else [])
        ++ [(2, code), (3, nm), (4, [hnd])] := by
  obtain ⟨m1, ca1, cb1, hopt, h2, hcapsEq⟩ := matches_seq_decomp h
  obtain ⟨at1, hs1, hat, hca1⟩ := matches_optat_decomp hopt
  obtain ⟨m2, ca2, cb2, hsp1m, h3, hcb1⟩ := matches_seq_decomp h2
  obtain ⟨sp1, hm1, hsp1, hca2⟩ := matches_star_decomp hsp1m
  obtain ⟨m3, ca3, cb3, hcodem, h4, hcb2⟩ := matches_seq_decomp h3
  obtain ⟨code, hm2, hcode3, hcodeU, hca3⟩ := matches_code_decomp hcodem
  obtain ⟨m4, ca4, cb4, hsp2m, h5, hcb3⟩ := matches_seq_decomp h4
  obtain ⟨sp2, hm3, hsp2, hca4⟩ := matches_star_decomp hsp2m
  obtain ⟨m5, ca5, cb5, hnmm, h6, hcb4⟩ := matches_seq_decomp h5
  obtain ⟨nm, hm4, hnmne, hnmC, hca5⟩ := matches_name_decomp hnmm
  obtain ⟨m6, ca6, cb6, hsp3m, h7, hcb5⟩ := matches_seq_decomp h6
  obtain ⟨sp3, hm5, hsp3, hca6⟩ := matches_star_decomp hsp3m
  obtain ⟨m7, ca7, cb7, hlp, h8, hcb6⟩ := matches_seq_decomp h7
  obtain ⟨hm6, hca7⟩ := matches_lit_decomp hlp
  obtain ⟨m8, ca8, cb8, hhm, h9, hcb7⟩ := matches_seq_decomp h8
  obtain ⟨hnd, hm7, hhnd, hca8⟩ := matches_hand_decomp hhm
  obtain ⟨m9, ca9, cb9, hrp, h10, hcb8⟩ := matches_seq_decomp h9
  obtain ⟨hm8, hca9⟩ := matches_lit_decomp hrp
  obtain ⟨hm9, hdollar, hca10⟩ := matches_dollar_decomp h10
  refine ⟨at1, sp1, code, sp2, nm, sp3, hnd, ?_, hat, hsp1, hcode3, hcodeU,
    hsp2, hnmne, hnmC, hsp3, hhnd, ?_, ?_⟩
  · rw [hs1, hm1, hm2, hm3, hm4, hm5, hm6, hm7, hm8, hm9]
  · rw [← hm9]
    exact hdollar
  · rw [hcapsEq, hca1, hcb1, hca2, hcb2, hca3, hcb3, hca4, hcb4, hca5, hcb5,
      hca6, hcb6, hca7, hcb7, hca8, hcb8, hca9, hca10]
    simp

/-! ## Output characterization of `parse_pitcher_entry` -/

theorem parse_some_decomp {s : String} {e : ParsedEntry}
    (h : parse_pitcher_entry s = some e) :
    ∃ (at1 sp1 code sp2 nm sp3 : List Char) (hnd : Char) (rest : List Char),
      s.data = at1 ++ (sp1 ++ (code ++ (sp2 ++ (nm ++ (sp3 ++ '(' :: hnd :: ')' :: rest))))) ∧
      (at1 = [] ∨ at1 = ['@']) ∧
      (∀ c ∈ sp1, pySpace c = true) ∧
      code.length = 3 ∧ (∀ c ∈ code, upperChar c = true) ∧
      (∀ c ∈ sp2, pySpace c = true) ∧
      nm ≠ [] ∧ (∀ c ∈ nm, nameChar c = true) ∧
      (∀ c ∈ sp3, pySpace c = true) ∧
      (hnd = 'L' ∨ hnd = 'R') ∧
      (rest = [] ∨ rest = ['\n']) ∧
      e = ⟨String.mk [hnd], String.mk (pyStrip nm),
        String.mk ((if at1 = ['@'] then '@' else 'v') :: ' ' :: code)⟩ := by
  unfold parse_pitcher_entry at h
  rcases hm : reMatch entryPattern s with _ | caps
  · rw [hm] at h
    exact absurd h (by simp)
  · rw [hm] at h
    have he : e = ⟨String.mk ((capGet caps 4).getD []),
        String.mk (pyStrip ((capGet caps 3).getD [])),
        String.mk ((if capGet caps 1 == some ['@'] then '@' else 'v')
          :: ' ' :: (capGet caps 2).getD [])⟩ := by
      have h' : some (⟨String.mk ((capGet caps 4).getD []),
          String.mk (pyStrip ((capGet caps 3).getD [])),
          String.mk ((if capGet caps 1 == some ['@'] then '@' else 'v')
            :: ' ' :: (capGet caps 2).getD [])⟩ : ParsedEntry) = some e := h
      simpa using h'.symm
    unfold reMatch at hm
    obtain ⟨rest, caps', base, hmc, hk, hout⟩ := matchAux_sound _ _ _ _ hm
    have hbase : base = [] := by simpa using hk.symm
    subst hbase
    obtain ⟨at1, sp1, code, sp2, nm, sp3, hnd, hseq, hat, hsp1, hc3, hcU,
      hsp2, hnmne, hnmC, hsp3, hhnd, hrest, hcaps⟩ := entry_decomp hmc
    refine ⟨at1, sp1, code, sp2, nm, sp3, hnd, rest, hseq, hat, hsp1, hc3, hcU,
      hsp2, hnmne, hnmC, hsp3, hhnd, hrest, ?_⟩
    have hcv : caps = (if at1 = ['@'] then [(1, ['@'])] else [])
        ++ [(2, code), (3, nm), (4, [hnd])] := by
      rw [hout, List.append_nil, hcaps]
    rcases hat with rfl | rfl
    · rw [if_neg (by simp)] at hcv
      subst hcv
      rw [he]
      rfl
    · rw [if_pos rfl] at hcv
      subst hcv
      rw [he]
      rfl

/-! ## Claim C7 -/

theorem ne_of_class {p : Char → Bool} {c x : Char}
    (h1 : p c = true) (h2 : p x = false) : c ≠ x := by
  intro he
  rw [he, h2] at h1
  exact absurd h1 (by simp)

theorem boundary_append_inj {α : Type} {p : α → Bool} :
    ∀ {a b u v : List α} {x y : α},
      (∀ c ∈ a, p c = true) → (∀ c ∈ b, p c = true) →
      p x = false → p y = false →
      a ++ x :: u = b ++ y :: v → a = b ∧ x = y ∧ u = v := by
  intro a
  induction a with
  | nil =>
    intro b u v x y _ hb hx hy h
    cases b with
    | nil =>
      simp only [List.nil_append, List.cons.injEq] at h
      exact ⟨rfl, h.1, h.2⟩
    | cons z bs =>
      simp only [List.nil_append, List.cons_append, List.cons.injEq] at h
      have hz : p z = true := hb z (List.mem_cons_self _ _)
      rw [← h.1, hx] at hz
      exact absurd hz (by simp)
  | cons w as ih =>
    intro b u v x y ha hb hx hy h
    cases b with
    | nil =>
      simp only [List.cons_append, List.nil_append, List.cons.injEq] at h
      have hw : p w = true := ha w (List.mem_cons_self _ _)
      rw [h.1, hy] at hw
      exact absurd hw (by simp)
    | cons z bs =>
      simp only [List.cons_append, List.cons.injEq] at h
      obtain ⟨hab, hxy, huv⟩ := ih
        (fun c hc => ha c (List.mem_cons_of_mem _ hc))
        (fun c hc => hb c (List.mem_cons_of_mem _ hc)) hx hy h.2
      exact ⟨by rw [h.1, hab], hxy, huv⟩

/-- The class "not an opening parenthesis", used to align the unique `(`
of an accepted entry. -/
theorem notParen_of_segments {a1 sp1 cd sp2 nm sp3 : List Char}
    (hat : a1 = [] ∨ a1 = ['@'])
    (hsp1 : ∀ c ∈ sp1, pySpace c = true)
    (hcd : ∀ c ∈ cd, upperChar c = true)
    (hsp2 : ∀ c ∈ sp2, pySpace c = true)
    (hnm : ∀ c ∈ nm, nameChar c = true)
    (hsp3 : ∀ c ∈ sp3, pySpace c = true) :
    ∀ c ∈ a1 ++ (sp1 ++ (cd ++ (sp2 ++ (nm ++ sp3)))), (!(c == '(')) = true := by
  intro c hc
  have hne : c ≠ '(' := by
    simp only [List.mem_append] at hc
    rcases hc with hc | hc | hc | hc | hc | hc
    · rcases hat with rfl | rfl
      · exact absurd hc (by simp)
      · rcases List.mem_singleton.mp hc with rfl
        decide
    · exact ne_of_class (hsp1 c hc) (by decide)
    · exact ne_of_class (hcd c hc) (by decide)
    · exact ne_of_class (hsp2 c hc) (by decide)
    · exact ne_of_class (hnm c hc) (by decide)
    · exact ne_of_class (hsp3 c hc) (by decide)
  simp [hne]

/-- C7, counterexample.  The claim says any characters after the closing
parenthesis make `parse_pitcher_entry` return null, citing a trailing
newline as an example.  Python's `$` anchor also matches just before one
final newline, so `"NYY John Smith (L)\n"` is accepted. -/
theorem c7_counterexample :
    parse_pitcher_entry "NYY John Smith (L)\n"
      = some ⟨"L", "John Smith", "v NYY"⟩ := by rfl

/-- C7 (amended): appending any nonempty suffix other than a single
newline to an accepted entry makes `parse_pitcher_entry` return `none`;
a single trailing newline is tolerated by the `$` anchor, which matches
at the end of the string or just before one final newline. -/
theorem c7_no_trailing_text (s t : String) (e : ParsedEntry)
    (hs : parse_pitcher_entry s = some e)
    (ht0 : t ≠ "") (ht1 : t ≠ "\n") :
    parse_pitcher_entry (s ++ t) = none := by
  rcases hpt : parse_pitcher_entry (s ++ t) with _ | e2
  · rfl
  · exfalso
    obtain ⟨a1, sp1, cd, sp2, nm, sp3, h1, r1, hseq1, hat1, hsp1, hc31, hcU1,
      hsp21, hne1, hnm1, hsp31, hh1, hr1, -⟩ := parse_some_decomp hs
    obtain ⟨a2, sq1, cd2, sq2, nm2, sq3, h2, r2, hseq2, hat2, hsq1, hc32, hcU2,
      hsq21, hne2, hnm2, hsq31, hh2, hr2, -⟩ := parse_some_decomp hpt
    have hdata : (s ++ t).data = s.data ++ t.data := String.data_append s t
    have h1eq : s.data ++ t.data
        = (a1 ++ (sp1 ++ (cd ++ (sp2 ++ (nm ++ sp3)))))
          ++ '(' :: h1 :: ')' :: (r1 ++ t.data) := by
      rw [hseq1]
      simp
    have h2eq : s.data ++ t.data
        = (a2 ++ (sq1 ++ (cd2 ++ (sq2 ++ (nm2 ++ sq3)))))
          ++ '(' :: h2 :: ')' :: r2 := by
      rw [← hdata, hseq2]
      simp
    have hcomb := h1eq.symm.trans h2eq
    obtain ⟨-, htail⟩ := boundary_append_inj
      (notParen_of_segments hat1 hsp1 hcU1 hsp21 hnm1 hsp31)
      (notParen_of_segments hat2 hsq1 hcU2 hsq21 hnm2 hsq31)
      (by decide) (by decide) hcomb
    have hr : r1 ++ t.data = r2 := by
      have hdrop := congrArg (fun l : List Char => l.drop 2) htail.2
      simpa using hdrop
    have htd0 : t.data ≠ [] := by
      intro hd
      apply ht0
      have ht : t = String.mk t.data := rfl
      rw [ht, hd]
    have htd1 : t.data ≠ ['\n'] := by
      intro hd
      apply ht1
      have ht : t = String.mk t.data := rfl
      rw [ht, hd]
    rcases hr2 with rfl | rfl
    · rcases List.append_eq_nil.mp hr with ⟨-, hnil⟩
      exact htd0 hnil
    · rcases hr1 with rfl | rfl
      · rw [List.nil_append] at hr
        exact htd1 hr
      · simp only [List.cons_append, List.cons.injEq] at hr
        exact htd0 hr.2

/-- C7, witness: one trailing `"x"` after an accepted entry yields
`none`. -/
theorem c7_witness :
    parse_pitcher_entry ("NYY John Smith (L)" ++ "x") = none :=
  c7_no_trailing_text "NYY John Smith (L)" "x" ⟨"L", "John Smith", "v NYY"⟩
    (by rfl) (by decide) (by decide)

/-! ## Claim C8 -/

theorem pySpace_false_of_upper {c : Char} (h : upperChar c = true) :
    pySpace c = false := by
  simp only [upperChar, decide_eq_true_eq] at h
  simp only [pySpace]
  rw [decide_eq_false_iff_not]
  omega

theorem dropWhile_append_all {p : Char → Bool} :
    ∀ {a : List Char}, (∀ c ∈ a, p c = true) → ∀ (y : List Char),
      (a ++ y).dropWhile p = y.dropWhile p := by
  intro a
  induction a with
  | nil => intro _ y; rfl
  | cons c as ih =>
    intro ha y
    have hc : p c = true := ha c (List.mem_cons_self _ _)
    show ((c :: (as ++ y)).dropWhile p) = y.dropWhile p
    rw [List.dropWhile_cons_of_pos hc]
    exact ih (fun x hx => ha x (List.mem_cons_of_mem _ hx)) y

theorem dropWhile_append_of_ne {p : Char → Bool} :
    ∀ {x : List Char}, x.dropWhile p ≠ [] → ∀ (b : List Char),
      (x ++ b).dropWhile p = x.dropWhile p ++ b := by
  intro x
  induction x with
  | nil => intro h; exact absurd rfl h
  | cons c cs ih =>
    intro h b
    by_cases hc : p c = true
    · rw [List.dropWhile_cons_of_pos hc] at h ⊢
      show ((c :: (cs ++ b)).dropWhile p) = cs.dropWhile p ++ b
      rw [List.dropWhile_cons_of_pos hc]
      exact ih h b
    · have hc' : p c = false := by
        cases hcc : p c
        · rfl
        · exact absurd hcc hc
      rw [List.dropWhile_cons_of_neg (by simp [hc'])] at h ⊢
      show ((c :: (cs ++ b)).dropWhile p) = (c :: cs) ++ b
      rw [List.dropWhile_cons_of_neg (by simp [hc'])]
      rfl

theorem pyStrip_surround {a x b : List Char}
    (ha : ∀ c ∈ a, pySpace c = true) (hb : ∀ c ∈ b, pySpace c = true) :
    pyStrip (a ++ (x ++ b)) = pyStrip x := by
  unfold pyStrip
  rw [dropWhile_append_all ha]
  rcases hdx : x.dropWhile pySpace with _ | ⟨d, ds⟩
  · have hx : ∀ c ∈ x, pySpace c = true := List.dropWhile_eq_nil_iff.mp hdx
    rw [dropWhile_append_all hx, List.dropWhile_eq_nil_iff.mpr hb]
  · rw [dropWhile_append_of_ne (by rw [hdx]; simp) b, hdx]
    have hrev : ((d :: ds) ++ b).reverse = b.reverse ++ (d :: ds).reverse := by
      simp
    rw [hrev, dropWhile_append_all (fun c hc => hb c (by simpa using hc))]

/-- C8, counterexample.  The claim (like the spec) says the `@` marker
may be *preceded* by whitespace, but the pattern anchors `(@)?` at the
very start of the string: `" @NYY John Smith (L)"` is rejected. -/
theorem c8_counterexample :
    parse_pitcher_entry " @NYY John Smith (L)" = none := by rfl

/-- C8 (amended): the away marker must be the first character — no
whitespace may precede it; whitespace may follow it.  For every string
consisting of `@`, then whitespace, then a 3-uppercase-letter opponent
code, a nonempty name of letters and whitespace, and a terminal
`(L)`/`(R)` marker, `parse_pitcher_entry` succeeds and returns
`formatted_opponent = "@ " + code` (and the stripped name). -/
theorem c8_at_marker (ws code nm : List Char) (hnd : Char)
    (hws : ∀ c ∈ ws, pySpace c = true)
    (hcode : code.length = 3) (hcodeU : ∀ c ∈ code, upperChar c = true)
    (hnm : nm ≠ []) (hnmC : ∀ c ∈ nm, nameChar c = true)
    (hhnd : hnd = 'L' ∨ hnd = 'R') :
    parse_pitcher_entry (String.mk ('@' :: (ws ++ (code ++ (nm ++ ['(', hnd, ')'])))))
      = some ⟨String.mk [hnd], String.mk (pyStrip nm),
          String.mk ('@' :: ' ' :: code)⟩ := by
  rcases code with _ | ⟨c1, _ | ⟨c2, _ | ⟨c3, _ | ⟨c4, cr⟩⟩⟩⟩ <;>
    simp only [List.length_nil, List.length_cons] at hcode <;>
    try omega
  rcases hnme : nm with _ | ⟨n0, ntl⟩
  · exact absurd hnme hnm
  · subst hnme
    have hc1 : upperChar c1 = true := hcodeU c1 (by simp)
    have hc2 : upperChar c2 = true := hcodeU c2 (by simp)
    have hc3 : upperChar c3 = true := hcodeU c3 (by simp)
    have hn0 : nameChar n0 = true := hnmC n0 (by simp)
    have hntl : ∀ x ∈ ntl, nameChar x = true :=
      fun x hx => hnmC x (by simp [hx])
    have hhB : handChar hnd = true := by
      rcases hhnd with rfl | rfl <;> decide
    -- completeness: the entry pattern matches the constructed string
    have d1 := MatchesC.seq (MatchesC.lit ')' []) MatchesC.dollarNil
    have d2 := MatchesC.seq (MatchesC.grp (n := 4) (MatchesC.cls [')'] hhB)) d1
    have d3 := MatchesC.seq (MatchesC.lit '(' (hnd :: [')'])) d2
    have d4 := MatchesC.seq
      (MatchesC.star (p := pySpace) [] ('(' :: hnd :: [')']) (by simp)) d3
    have d5 := MatchesC.seq (MatchesC.grp (n := 3)
      (MatchesC.plus ntl ('(' :: hnd :: [')']) hn0 hntl)) d4
    have d6 := MatchesC.seq
      (MatchesC.star (p := pySpace) [] (n0 :: (ntl ++ ('(' :: hnd :: [')'])))
        (by simp)) d5
    have d7 := MatchesC.seq (MatchesC.grp (n := 2)
      (MatchesC.seq (MatchesC.cls (c2 :: c3 :: (n0 :: (ntl ++ ('(' :: hnd :: [')'])))) hc1)
        (MatchesC.seq (MatchesC.cls (c3 :: (n0 :: (ntl ++ ('(' :: hnd :: [')'])))) hc2)
          (MatchesC.cls (n0 :: (ntl ++ ('(' :: hnd :: [')']))) hc3)))) d6
    have d8 := MatchesC.seq
      (MatchesC.star ws (c1 :: c2 :: c3 :: (n0 :: (ntl ++ ('(' :: hnd :: [')'])))) hws) d7
    have d9 := MatchesC.seq (MatchesC.optSome (MatchesC.grp (n := 1)
      (MatchesC.lit '@'
        (ws ++ (c1 :: c2 :: c3 :: (n0 :: (ntl ++ ('(' :: hnd :: [')'])))))))) d8
    have hsome : (matchAux entryPattern
        ('@' :: (ws ++ ([c1, c2, c3] ++ ((n0 :: ntl) ++ ['(', hnd, ')']))))
        (fun _ => some [])).isSome = true :=
      matchAux_complete d9 (fun _ => some []) rfl
    rcases hre : reMatch entryPattern
        (String.mk ('@' :: (ws ++ ([c1, c2, c3] ++ ((n0 :: ntl) ++ ['(', hnd, ')'])))))
      with _ | caps
    · have hre2 : (reMatch entryPattern
          (String.mk ('@' :: (ws ++ ([c1, c2, c3] ++ ((n0 :: ntl) ++ ['(', hnd, ')'])))))).isSome
          = true := hsome
      rw [hre] at hre2
      exact absurd hre2 (by simp)
    · have hp : parse_pitcher_entry
          (String.mk ('@' :: (ws ++ ([c1, c2, c3] ++ ((n0 :: ntl) ++ ['(', hnd, ')'])))))
          = some ⟨String.mk ((capGet caps 4).getD []),
              String.mk (pyStrip ((capGet caps 3).getD [])),
              String.mk ((if capGet caps 1 == some ['@'] then '@' else 'v')
                :: ' ' :: (capGet caps 2).getD [])⟩ := by
        unfold parse_pitcher_entry
        rw [hre]
      obtain ⟨a2, sq1, cd2, sq2, nm2, sq3, h2, r2, hseq2, hat2, hsq1, hc32,
        hcU2, hsq2, hne2, hnm2, hsq3, hh2, hr2, he2⟩ := parse_some_decomp hp
      -- align the unique opening parenthesis
      have hE : ('@' :: (ws ++ (c1 :: c2 :: c3 :: (n0 :: ntl ++ ['(', hnd, ')']))))
          = a2 ++ (sq1 ++ (cd2 ++ (sq2 ++ (nm2 ++ (sq3 ++ '(' :: h2 :: ')' :: r2))))) := by
        have := hseq2
        simpa using this
      have hE1 : ('@' :: (ws ++ (c1 :: c2 :: c3 :: n0 :: ntl)))
            ++ '(' :: hnd :: ')' :: []
          = (a2 ++ (sq1 ++ (cd2 ++ (sq2 ++ (nm2 ++ sq3)))))
            ++ '(' :: h2 :: ')' :: r2 := by
        simpa using hE
      have hnp1 : ∀ c ∈ '@' :: (ws ++ (c1 :: c2 :: c3 :: n0 :: ntl)),
          (!(c == '(')) = true := by
        intro c hc
        have hne : c ≠ '(' := by
          rcases List.mem_cons.mp hc with rfl | hc
          · decide
          · rcases List.mem_append.mp hc with hc | hc
            · exact ne_of_class (hws c hc) (by decide)
            · rcases List.mem_cons.mp hc with rfl | hc
              · exact ne_of_class hc1 (by decide)
              · rcases List.mem_cons.mp hc with rfl | hc
                · exact ne_of_class hc2 (by decide)
                · rcases List.mem_cons.mp hc with rfl | hc
                  · exact ne_of_class hc3 (by decide)
                  · rcases List.mem_cons.mp hc with rfl | hc
                    · exact ne_of_class hn0 (by decide)
                    · exact ne_of_class (hntl c hc) (by decide)
        simp [hne]
      obtain ⟨hpre, -, htl⟩ := boundary_append_inj hnp1
        (notParen_of_segments hat2 hsq1 hcU2 hsq2 hnm2 hsq3)
        (by decide) (by decide) hE1
      have hh : hnd = h2 := by
        have := congrArg (fun l : List Char => l.headD 'x') htl
        simpa using this
      -- the away marker must be present
      rcases cd2 with _ | ⟨u1, _ | ⟨u2, _ | ⟨u3, _ | ⟨u4, ur⟩⟩⟩⟩ <;>
        simp only [List.length_nil, List.length_cons] at hc32 <;>
        try omega
      rcases hat2 with rfl | rfl
      · exfalso
        rcases sq1 with _ | ⟨y, ys⟩
        · simp only [List.nil_append, List.cons_append, List.cons.injEq] at hpre
          have := hcU2 u1 (by simp)
          rw [← hpre.1] at this
          exact absurd this (by decide)
        · simp only [List.nil_append, List.cons_append, List.cons.injEq] at hpre
          have := hsq1 y (by simp)
          rw [← hpre.1] at this
          exact absurd this (by decide)
      · -- strip the marker, align the whitespace run and the code
        simp only [List.cons_append, List.cons.injEq, true_and] at hpre
        have hpre2 : ws ++ (c1 :: (c2 :: c3 :: n0 :: ntl))
            = sq1 ++ (u1 :: (u2 :: u3 :: (sq2 ++ (nm2 ++ sq3)))) := by
          rw [hpre]
          simp
        obtain ⟨hws2, hcu1, htl2⟩ := boundary_append_inj hws hsq1
          (pySpace_false_of_upper hc1) (pySpace_false_of_upper (hcU2 u1 (by simp)))
          hpre2
        have hcu2 : c2 = u2 := by
          have := congrArg (fun l : List Char => l.headD 'x') htl2
          simpa using this
        have hcu3 : c3 = u3 := by
          have := congrArg (fun l : List Char => (l.drop 1).headD 'x') htl2
          simpa using this
        have hname : n0 :: ntl = sq2 ++ (nm2 ++ sq3) := by
          have := congrArg (fun l : List Char => l.drop 2) htl2
          simpa using this
        have hstrip : pyStrip nm2 = pyStrip (n0 :: ntl) := by
          rw [hname, pyStrip_surround hsq2 hsq3]
        rw [hp, he2]
        rw [if_pos rfl, hstrip, hh, ← hcu1, ← hcu2, ← hcu3]

/-- C8, witness: `"@ NYY John (L)"` parses with opponent `"@ NYY"` and
stripped name `"John"`. -/
theorem c8_witness :
    parse_pitcher_entry (String.mk ('@' :: ([' '] ++ (['N', 'Y', 'Y']
        ++ ([' ', 'J', 'o', 'h', 'n', ' '] ++ ['(', 'L', ')'])))))
      = some ⟨String.mk ['L'], String.mk (pyStrip [' ', 'J', 'o', 'h', 'n', ' ']),
          String.mk ('@' :: ' ' :: ['N', 'Y', 'Y'])⟩ :=
  c8_at_marker [' '] ['N', 'Y', 'Y'] [' ', 'J', 'o', 'h', 'n', ' '] 'L'
    (by decide) (by decide) (by decide) (by decide) (by decide) (Or.inl rfl)

end SpApp
